import Mathlib

/-!
Verification development for the orchestrator-workers task scheduler of
`workflow_orchestrator_workers_pattern.py`.

The scheduler is embedded shallowly: the mutable `self.tasks` dict becomes an
association list of `SubTask` values (Python dict iteration order = insertion
order), the `llm.call` collaborator becomes a function `String → Except String
String` (an `Except.error` models a raised exception), and the round loop of
`OrchestratorAgent.execute_task` becomes a fuel-indexed recursive function
(`fuelExhausted` is unreachable for the fuel bound used by `runFromMap`, as the
theorems below establish).  Python's `asyncio.gather` over coroutines that
contain no genuine await point runs its children to completion in argument
order, which makes the batch semantics of one round deterministic: every
child's outcome is computed, every failing child marks itself FAILED, and the
first failure in batch order is the exception propagated to the caller.
-/

namespace Orchestrator

/-- Mirror of the Python `TaskStatus` enum. -/
inductive TaskStatus where
  | pending
  | in_progress
  | completed
  | failed
deriving DecidableEq, Repr

/-- Mirror of the Python `SubTask` dataclass. `result : Optional[str]` becomes
`Option String`. -/
structure SubTask where
  id : String
  description : String
  dependencies : List String
  status : TaskStatus := TaskStatus.pending
  result : Option String := none
deriving DecidableEq, Repr

/-- The orchestrator's `self.tasks` dict, keyed by `SubTask.id`, in insertion
order. -/
abbrev TaskMap := List SubTask

/-- `self.tasks.get(i)` / `self.tasks[i]` lookup. -/
def findTask (tasks : TaskMap) (i : String) : Option SubTask :=
  tasks.find? (fun t => t.id = i)

/-- `self.tasks[task.id] = task`: Python dict assignment, overwriting an
existing entry in place or appending a fresh one. -/
def insertTask (tasks : TaskMap) (t : SubTask) : TaskMap :=
  if tasks.any (fun u => u.id = t.id) then
    tasks.map (fun u => if u.id = t.id then t else u)
  else
    tasks ++ [t]

/-- The insertion loop `for task in subtasks: self.tasks[task.id] = task` of
`execute_task` (lines 101-102), starting from the fresh orchestrator's empty
dict. -/
def buildTasks (subtasks : List SubTask) : TaskMap :=
  subtasks.foldl insertTask []

/-- The generator `all(self.tasks[dep_id].status == TaskStatus.COMPLETED for
dep_id in task.dependencies)` (lines 112-115).  `Except.error d` models the
`KeyError` raised by `self.tasks[d]` when `d` is absent; like Python's `all`,
the scan short-circuits on the first non-completed dependency. -/
def depsAllCompleted (tasks : TaskMap) : List String → Except String Bool
  | [] => Except.ok true
  | d :: rest =>
    match findTask tasks d with
    | none => Except.error d
    | some u =>
      if u.status = TaskStatus.completed then depsAllCompleted tasks rest
      else Except.ok false

/-- The per-task condition of the `ready_tasks` comprehension (lines 111-115):
`task.status == TaskStatus.PENDING and all(...)`, with Python's `and`
short-circuit (a non-PENDING task never evaluates its dependencies). -/
def readyCheck (tasks : TaskMap) (t : SubTask) : Except String Bool :=
  if t.status = TaskStatus.pending then depsAllCompleted tasks t.dependencies
  else Except.ok false

/-- The `ready_tasks` list comprehension scans every task of the map in order;
the first `KeyError` raised by any task's condition aborts the whole
computation. -/
def computeReadyAux (tasks : TaskMap) : List SubTask → Except String (List SubTask)
  | [] => Except.ok []
  | t :: rest =>
    match readyCheck tasks t with
    | Except.error d => Except.error d
    | Except.ok true =>
      match computeReadyAux tasks rest with
      | Except.error d => Except.error d
      | Except.ok l => Except.ok (t :: l)
    | Except.ok false => computeReadyAux tasks rest

/-- `ready_tasks = [task for task in self.tasks.values() if ...]`
(lines 108-116). -/
def computeReady (tasks : TaskMap) : Except String (List SubTask) :=
  computeReadyAux tasks tasks

/-- The entries accumulated by `_get_dependency_results` (lines 77-84): one
`f"{dep_id}: {dep_task.result}"` line per dependency whose task exists and has
a truthy result (Python skips both `None` and the empty string). -/
def dependencyEntries (tasks : TaskMap) (t : SubTask) : List (String × String) :=
  t.dependencies.filterMap (fun d =>
    match findTask tasks d with
    | some u =>
      match u.result with
      | some r => if r = "" then none else some (d, r)
      | none => none
    | none => none)

/-- `"\n".join(dependency_results)` from `_get_dependency_results`. -/
def get_dependency_results (tasks : TaskMap) (t : SubTask) : String :=
  String.intercalate "\n" ((dependencyEntries tasks t).map (fun p => p.1 ++ ": " ++ p.2))

/-- The `execution_prompt` f-string of `execute_subtask` (lines 62-68). -/
def executionPrompt (tasks : TaskMap) (t : SubTask) : String :=
  "\n        Execute the following task:\n        " ++ t.description ++
  "\n        \n        If this task depends on other tasks, here are their results:\n        " ++
  get_dependency_results tasks t ++ "\n        "

/-- Outcome of `self.llm.call(execution_prompt)` for every task of one batch,
in batch order; the id is kept so a failure can be attributed. -/
def batchOutcomes (llm : String → Except String String) (tasks : TaskMap)
    (batch : List SubTask) : List (String × Except String String) :=
  batch.map (fun t => (t.id, llm (executionPrompt tasks t)))

/-- Whether one `llm.call` outcome was an exception. -/
def outcomeFailed : Except String String → Bool
  | Except.error _ => true
  | Except.ok _ => false

/-- The first failing task of a batch, in batch order: the exception that
`asyncio.gather` propagates out of `execute_task`. -/
def firstFailure : List (String × Except String String) → Option (String × String)
  | [] => none
  | (i, Except.error m) :: _ => some (i, m)
  | (_, Except.ok _) :: rest => firstFailure rest

/-- Ids of every failing task of a batch: each such `execute_subtask` coroutine
runs its `except` branch and sets its own task's status to FAILED before the
gather exception reaches the caller. -/
def failedIds (outcomes : List (String × Except String String)) : List String :=
  (outcomes.filter (fun p => outcomeFailed p.2)).map Prod.fst

/-- Successful `(task.id, result)` pairs of a batch, in batch order (the `zip`
of lines 140-143 when no exception occurred). -/
def okPairs (outcomes : List (String × Except String String)) : List (String × String) :=
  outcomes.filterMap (fun p =>
    match p.2 with
    | Except.ok r => some (p.1, r)
    | Except.error _ => none)

/-- `task.status = TaskStatus.IN_PROGRESS` for every ready task (line 134). -/
def markInProgress (tasks : TaskMap) (ids : List String) : TaskMap :=
  tasks.map (fun t =>
    if t.id ∈ ids then { t with status := TaskStatus.in_progress } else t)

/-- `task.status = TaskStatus.FAILED` in the `except` branch of
`execute_subtask` (line 74), for every failing task of the batch. -/
def markFailed (tasks : TaskMap) (ids : List String) : TaskMap :=
  tasks.map (fun t =>
    if t.id ∈ ids then { t with status := TaskStatus.failed } else t)

/-- Lines 140-142: `task.status = TaskStatus.COMPLETED; task.result = result`
for every `(task, result)` pair of a successful batch. -/
def completeBatch (tasks : TaskMap) (pairs : List (String × String)) : TaskMap :=
  tasks.map (fun t =>
    match pairs.find? (fun p => p.1 = t.id) with
    | some p => { t with status := TaskStatus.completed, result := some p.2 }
    | none => t)

/-- `results[task.id] = result`: dict assignment on the local `results`. -/
def setResult (results : List (String × String)) (i r : String) : List (String × String) :=
  if results.any (fun p => p.1 = i) then
    results.map (fun p => if p.1 = i then (i, r) else p)
  else
    results ++ [(i, r)]

/-- Line 143 executed for every pair of a successful batch, in batch order. -/
def updateResults (results : List (String × String)) :
    List (String × String) → List (String × String)
  | [] => results
  | (i, r) :: rest => updateResults (setResult results i r) rest

/-- The exceptions `execute_task` can raise, abstracted from the Python
exception type plus message:
`keyError d` is the `KeyError(d)` escaping the readiness comprehension;
`taskFailed i m` is `Exception(f"Failed to execute task {i}: {m}")`;
`executionFailed` is `Exception("Task execution failed")` (line 123);
`cycleDetected` is `Exception("Dependency cycle detected")` (line 128);
`fuelExhausted` is an artifact of the fuel-indexed embedding, unreachable for
the bound `runFromMap` uses. -/
inductive RunError where
  | keyError (depId : String)
  | taskFailed (taskId : String) (msg : String)
  | executionFailed
  | cycleDetected
  | fuelExhausted
deriving DecidableEq, Repr

/-- The message string Python attaches to each exception. -/
def RunError.message : RunError → String
  | RunError.keyError d => d
  | RunError.taskFailed i m => "Failed to execute task " ++ i ++ ": " ++ m
  | RunError.executionFailed => "Task execution failed"
  | RunError.cycleDetected => "Dependency cycle detected"
  | RunError.fuelExhausted => "fuel exhausted"

/-- State of the while-loop of `execute_task`: the orchestrator's task map and
the local `results` dict. -/
structure St where
  tasks : TaskMap
  results : List (String × String)

/-- Number of tasks the while-condition of line 106 still counts as unfinished;
each successful round strictly decreases it, so it bounds the number of rounds. -/
def notCompletedCount (tasks : TaskMap) : Nat :=
  (tasks.filter (fun t => t.status ≠ TaskStatus.completed)).length

/-- The scheduling while-loop of `execute_task` (lines 106-143).  One unfolding
is one round: recompute the ready set, raise on `KeyError`, handle the empty
ready set (failure check, cycle check, `break`), otherwise mark the batch
IN_PROGRESS, run it, and either propagate the first failure (failing siblings
FAILED, successful siblings' results discarded) or store every result and
continue. -/
def runLoop (llm : String → Except String String) :
    Nat → St → TaskMap × Except RunError (List (String × String))
  | 0, st => (st.tasks, Except.error RunError.fuelExhausted)
  | fuel + 1, st =>
    if st.tasks.any (fun t => t.status ≠ TaskStatus.completed) then
      match computeReady st.tasks with
      | Except.error d => (st.tasks, Except.error (RunError.keyError d))
      | Except.ok [] =>
        if st.tasks.any (fun t => t.status = TaskStatus.failed) then
          (st.tasks, Except.error RunError.executionFailed)
        else if st.tasks.any (fun t => t.status = TaskStatus.pending) then
          (st.tasks, Except.error RunError.cycleDetected)
        else
          (st.tasks, Except.ok st.results)
      | Except.ok (r :: rs) =>
        let readyIds := (r :: rs).map SubTask.id
        let marked := markInProgress st.tasks readyIds
        let outcomes := batchOutcomes llm marked (r :: rs)
        match firstFailure outcomes with
        | some (i, m) =>
          (markFailed marked (failedIds outcomes), Except.error (RunError.taskFailed i m))
        | none =>
          runLoop llm fuel
            { tasks := completeBatch marked (okPairs outcomes),
              results := updateResults st.results (okPairs outcomes) }
    else
      (st.tasks, Except.ok st.results)

/-- `execute_task` from the point where `self.tasks` is already populated:
run the loop, then on success invoke the synthesis step (`synthesize_results`,
modelled by the pluggable `agg`) exactly once on the accumulated `results`.
The fuel `notCompletedCount tasks + 1` is sufficient because every round that
recurses completes at least one task. -/
def runFromMap (llm : String → Except String String)
    (agg : List (String × String) → String) (tasks : TaskMap) :
    TaskMap × Except RunError String :=
  match runLoop llm (notCompletedCount tasks + 1) { tasks := tasks, results := [] } with
  | (ft, Except.ok results) => (ft, Except.ok (agg results))
  | (ft, Except.error e) => (ft, Except.error e)

/-- The whole of `execute_task` after the planning call: insert the planned
subtasks into the (initially empty) task dict, then run. -/
def execute_task (llm : String → Except String String)
    (agg : List (String × String) → String) (subtasks : List SubTask) :
    TaskMap × Except RunError String :=
  runFromMap llm agg (buildTasks subtasks)

/-- A dependency edge: task `i` exists in the map and lists `j` among its
dependencies. -/
def hasDependencyEdge (tasks : TaskMap) (i j : String) : Prop :=
  ∃ t, findTask tasks i = some t ∧ j ∈ t.dependencies

/-- The task map contains a dependency cycle: some id reaches itself through a
nonempty chain of dependency edges (a self-dependency being the chain of
length one). -/
def HasCycle (tasks : TaskMap) : Prop :=
  ∃ i, Relation.TransGen (hasDependencyEdge tasks) i i

/-- The dependency relation of the task map is a DAG, phrased as the existence
of a topological height function. -/
def IsDagRanked (tasks : TaskMap) : Prop :=
  ∃ rank : String → Nat, ∀ t ∈ tasks, ∀ d ∈ t.dependencies, rank d < rank t.id

/-- Every dependency id referenced anywhere in the map resolves to a task
(the data-model invariant of the spec, §3). -/
def ClosedDeps (tasks : TaskMap) : Prop :=
  ∀ t ∈ tasks, ∀ d ∈ t.dependencies, ∃ u, findTask tasks d = some u

/-- Ids of the tasks a map still holds as PENDING. -/
def pendingIds (tasks : TaskMap) : List String :=
  (tasks.filter (fun t => t.status = TaskStatus.pending)).map SubTask.id

/-- Number of tasks currently IN_PROGRESS (the simultaneity measure of the
spec's concurrency scenario). -/
def inProgressCount (tasks : TaskMap) : Nat :=
  (tasks.filter (fun t => t.status = TaskStatus.in_progress)).length

theorem findTask_eq_some {tasks : TaskMap} {i : String} {u : SubTask}
    (h : findTask tasks i = some u) : u ∈ tasks ∧ u.id = i := by
  refine ⟨List.mem_of_find?_eq_some h, ?_⟩
  have := List.find?_some h
  exact of_decide_eq_true this

theorem findTask_isSome_of_mem {tasks : TaskMap} {t : SubTask}
    (h : t ∈ tasks) : (findTask tasks t.id).isSome := by
  unfold findTask
  rw [List.find?_isSome]
  exact ⟨t, h, by simp⟩

theorem depsAllCompleted_ok_true_iff {tasks : TaskMap} {deps : List String} :
    depsAllCompleted tasks deps = Except.ok true ↔
      ∀ d ∈ deps, ∃ u, findTask tasks d = some u ∧ u.status = TaskStatus.completed := by
  induction deps with
  | nil => simp [depsAllCompleted]
  | cons d rest ih =>
    simp only [depsAllCompleted]
    cases hf : findTask tasks d with
    | none =>
      simp only [List.mem_cons]
      constructor
      · intro h; cases h
      · intro h
        obtain ⟨u, hu, _⟩ := h d (Or.inl rfl)
        rw [hf] at hu; cases hu
    | some u =>
      by_cases hs : u.status = TaskStatus.completed
      · simp only [if_pos hs, ih, List.mem_cons]
        constructor
        · intro h e he
          rcases he with he | he
          · subst he; exact ⟨u, hf, hs⟩
          · exact h e he
        · intro h e he
          exact h e (Or.inr he)
      · simp only [if_neg hs, List.mem_cons]
        constructor
        · intro h; cases h
        · intro h
          obtain ⟨v, hv, hvs⟩ := h d (Or.inl rfl)
          rw [hf] at hv
          cases hv
          exact absurd hvs hs

theorem depsAllCompleted_total {tasks : TaskMap} {deps : List String}
    (h : ∀ d ∈ deps, ∃ u, findTask tasks d = some u) :
    ∃ b, depsAllCompleted tasks deps = Except.ok b := by
  induction deps with
  | nil => exact ⟨true, rfl⟩
  | cons d rest ih =>
    obtain ⟨u, hu⟩ := h d (List.mem_cons_self d rest)
    simp only [depsAllCompleted, hu]
    by_cases hs : u.status = TaskStatus.completed
    · rw [if_pos hs]
      exact ih (fun e he => h e (List.mem_cons_of_mem d he))
    · rw [if_neg hs]
      exact ⟨false, rfl⟩

theorem readyCheck_ok_true_iff {tasks : TaskMap} {t : SubTask} :
    readyCheck tasks t = Except.ok true ↔
      t.status = TaskStatus.pending ∧
        ∀ d ∈ t.dependencies, ∃ u, findTask tasks d = some u ∧
          u.status = TaskStatus.completed := by
  unfold readyCheck
  by_cases hp : t.status = TaskStatus.pending
  · rw [if_pos hp, depsAllCompleted_ok_true_iff]
    exact ⟨fun h => ⟨hp, h⟩, fun h => h.2⟩
  · rw [if_neg hp]
    constructor
    · intro h; cases h
    · intro h; exact absurd h.1 hp

theorem readyCheck_total {tasks : TaskMap} {t : SubTask}
    (h : ∀ d ∈ t.dependencies, ∃ u, findTask tasks d = some u) :
    ∃ b, readyCheck tasks t = Except.ok b := by
  unfold readyCheck
  by_cases hp : t.status = TaskStatus.pending
  · rw [if_pos hp]; exact depsAllCompleted_total h
  · rw [if_neg hp]; exact ⟨false, rfl⟩

theorem computeReadyAux_ok_mem {tasks : TaskMap} {l out : List SubTask}
    (h : computeReadyAux tasks l = Except.ok out) (t : SubTask) :
    t ∈ out ↔ t ∈ l ∧ readyCheck tasks t = Except.ok true := by
  induction l generalizing out with
  | nil =>
    simp only [computeReadyAux] at h
    cases h
    simp
  | cons s rest ih =>
    simp only [computeReadyAux] at h
    cases hc : readyCheck tasks s with
    | error d => rw [hc] at h; cases h
    | ok b =>
      rw [hc] at h
      cases b with
      | true =>
        cases hrest : computeReadyAux tasks rest with
        | error d => rw [hrest] at h; cases h
        | ok l2 =>
          rw [hrest] at h
          cases h
          simp only [List.mem_cons, ih hrest]
          constructor
          · intro h
            rcases h with h | ⟨h1, h2⟩
            · exact ⟨Or.inl h, h ▸ hc⟩
            · exact ⟨Or.inr h1, h2⟩
          · intro ⟨h1, h2⟩
            rcases h1 with h1 | h1
            · exact Or.inl h1
            · exact Or.inr ⟨h1, h2⟩
      | false =>
        rw [ih h]
        simp only [List.mem_cons]
        constructor
        · intro ⟨h1, h2⟩
          exact ⟨Or.inr h1, h2⟩
        · intro ⟨h1, h2⟩
          rcases h1 with h1 | h1
          · rw [h1] at h2
            rw [h2] at hc
            cases hc
          · exact ⟨h1, h2⟩

theorem computeReadyAux_total {tasks : TaskMap} {l : List SubTask}
    (h : ∀ t ∈ l, ∃ b, readyCheck tasks t = Except.ok b) :
    ∃ out, computeReadyAux tasks l = Except.ok out := by
  induction l with
  | nil => exact ⟨[], rfl⟩
  | cons s rest ih =>
    obtain ⟨b, hb⟩ := h s (List.mem_cons_self s rest)
    obtain ⟨out, hout⟩ := ih (fun t ht => h t (List.mem_cons_of_mem s ht))
    cases b with
    | true => exact ⟨s :: out, by simp [computeReadyAux, hb, hout]⟩
    | false => exact ⟨out, by simp [computeReadyAux, hb, hout]⟩

theorem computeReadyAux_error_of {tasks : TaskMap} {l : List SubTask} {t : SubTask}
    (ht : t ∈ l) (h : ∀ b, readyCheck tasks t ≠ Except.ok b) :
    ∃ d, computeReadyAux tasks l = Except.error d := by
  induction l with
  | nil => cases ht
  | cons s rest ih =>
    rcases List.mem_cons.mp ht with hh | hh
    · cases hc : readyCheck tasks s with
      | error d => exact ⟨d, by simp [computeReadyAux, hc]⟩
      | ok b => exact absurd (hh ▸ hc) (h b)
    · cases hc : readyCheck tasks s with
      | error d => exact ⟨d, by simp [computeReadyAux, hc]⟩
      | ok b =>
        obtain ⟨d, hd⟩ := ih hh
        cases b with
        | true => exact ⟨d, by simp [computeReadyAux, hc, hd]⟩
        | false => exact ⟨d, by simp [computeReadyAux, hc, hd]⟩

theorem findTask_cons (u : SubTask) (rest : TaskMap) (i : String) :
    findTask (u :: rest) i = if u.id = i then some u else findTask rest i := by
  simp only [findTask, List.find?]
  by_cases hu : u.id = i
  · simp [hu]
  · simp [hu]

theorem findTask_append (m1 m2 : TaskMap) (i : String) :
    findTask (m1 ++ m2) i =
      match findTask m1 i with
      | some u => some u
      | none => findTask m2 i := by
  induction m1 with
  | nil => simp [findTask]
  | cons u rest ih =>
    rw [List.cons_append, findTask_cons, findTask_cons]
    by_cases hu : u.id = i
    · simp [hu]
    · simp [hu, ih]

theorem findTask_map {m : TaskMap} {f : SubTask → SubTask}
    (hf : ∀ u, (f u).id = u.id) (i : String) :
    findTask (m.map f) i = (findTask m i).map f := by
  induction m with
  | nil => simp [findTask]
  | cons u rest ih =>
    rw [List.map_cons, findTask_cons, findTask_cons, hf u]
    by_cases hu : u.id = i
    · simp [hu]
    · simp [hu, ih]

theorem findTask_insertTask (m : TaskMap) (t : SubTask) (i : String) :
    findTask (insertTask m t) i = if t.id = i then some t else findTask m i := by
  unfold insertTask
  have hf : ∀ u : SubTask, (if u.id = t.id then t else u).id = u.id := by
    intro u
    by_cases hu : u.id = t.id
    · rw [if_pos hu, hu]
    · rw [if_neg hu]
  by_cases hany : m.any (fun u => u.id = t.id)
  · rw [if_pos hany, findTask_map hf]
    by_cases hi : t.id = i
    · rw [if_pos hi]
      subst hi
      obtain ⟨u, hu, hid⟩ := List.any_eq_true.mp hany
      have hid' : u.id = t.id := of_decide_eq_true hid
      have hsome : (findTask m t.id).isSome := by
        unfold findTask
        rw [List.find?_isSome]
        exact ⟨u, hu, by simp [hid']⟩
      cases hm : findTask m t.id with
      | none => rw [hm] at hsome; cases hsome
      | some v =>
        have hv := (findTask_eq_some hm).2
        simp [hv]
    · rw [if_neg hi]
      cases hm : findTask m i with
      | none => rfl
      | some v =>
        have hv := (findTask_eq_some hm).2
        have : ¬ v.id = t.id := by rw [hv]; exact fun h => hi h.symm
        simp [this]
  · rw [if_neg hany, findTask_append]
    by_cases hi : t.id = i
    · subst hi
      have hnone : findTask m t.id = none := by
        unfold findTask
        rw [List.find?_eq_none]
        intro u hu
        have := List.any_eq_false.mp (Bool.of_not_eq_true hany) u hu
        simp only [decide_eq_true_eq] at this
        simp [this]
      rw [hnone]
      simp [findTask_cons]
    · cases hm : findTask m i with
      | none => simp [findTask_cons, hi, findTask]
      | some v => simp [hi]

theorem findTask_foldl_insert_of_none (l : List SubTask) (acc : TaskMap) (i : String)
    (h : ∀ u ∈ l, u.id ≠ i) :
    findTask (l.foldl insertTask acc) i = findTask acc i := by
  induction l generalizing acc with
  | nil => rfl
  | cons u rest ih =>
    show findTask (rest.foldl insertTask (insertTask acc u)) i = _
    rw [ih _ (fun v hv => h v (List.mem_cons_of_mem u hv)),
        findTask_insertTask, if_neg (h u (List.mem_cons_self u rest))]

theorem map_id_of_id_preserving (m : TaskMap) (f : SubTask → SubTask)
    (hf : ∀ u, (f u).id = u.id) :
    (m.map f).map SubTask.id = m.map SubTask.id := by
  induction m with
  | nil => rfl
  | cons u rest ih => simp only [List.map_cons, hf, ih]

theorem insertTask_nodup_ids (m : TaskMap) (t : SubTask)
    (h : (m.map SubTask.id).Nodup) : ((insertTask m t).map SubTask.id).Nodup := by
  unfold insertTask
  have hf : ∀ u : SubTask, (if u.id = t.id then t else u).id = u.id := by
    intro u
    by_cases hu : u.id = t.id
    · rw [if_pos hu, hu]
    · rw [if_neg hu]
  by_cases hany : m.any (fun u => u.id = t.id)
  · rw [if_pos hany, map_id_of_id_preserving m _ hf]
    exact h
  · rw [if_neg hany]
    have hnot : t.id ∉ m.map SubTask.id := by
      intro hmem
      obtain ⟨u, hu, hid⟩ := List.mem_map.mp hmem
      have := List.any_eq_false.mp (Bool.of_not_eq_true hany) u hu
      simp only [decide_eq_true_eq] at this
      exact this hid
    simp only [List.map_append, List.map_cons, List.map_nil]
    rw [List.nodup_append]
    refine ⟨h, List.nodup_singleton _, ?_⟩
    intro a ha hb
    have hb' : a = t.id := by simpa using hb
    subst hb'
    exact hnot ha

theorem buildTasks_nodup_ids (l : List SubTask) :
    ((buildTasks l).map SubTask.id).Nodup := by
  have aux : ∀ (l : List SubTask) (acc : TaskMap), (acc.map SubTask.id).Nodup →
      ((l.foldl insertTask acc).map SubTask.id).Nodup := by
    intro l
    induction l with
    | nil => intro acc h; exact h
    | cons u rest ih =>
      intro acc h
      exact ih (insertTask acc u) (insertTask_nodup_ids acc u h)
  exact aux l [] (by simp)

theorem findTask_of_mem_nodup {m : TaskMap} {u : SubTask}
    (hn : (m.map SubTask.id).Nodup) (hu : u ∈ m) : findTask m u.id = some u := by
  induction m with
  | nil => cases hu
  | cons v rest ih =>
    simp only [List.map_cons, List.nodup_cons] at hn
    rcases List.mem_cons.mp hu with h | h
    · subst h
      simp [findTask_cons]
    · have hne : ¬ v.id = u.id := by
        intro he
        exact hn.1 (he ▸ List.mem_map.mpr ⟨u, h, rfl⟩)
      rw [findTask_cons, if_neg hne]
      exact ih hn.2 h

/-- C10: If the planning step returns two subtasks with the same id, the task
dict built by the insertion loop of lines 101-102 silently keeps only the
later one (last write wins): lookups for that id (used by readiness and by
dependency-result resolution) return the later subtask, and the earlier
subtask is not an entry of the dict at all, so it is never dispatched. -/
theorem duplicate_id_last_wins (pre mid post : List SubTask) (t1 t2 : SubTask)
    (hid : t1.id = t2.id) (hpost : ∀ u ∈ post, u.id ≠ t2.id) :
    findTask (buildTasks (pre ++ [t1] ++ mid ++ [t2] ++ post)) t1.id = some t2 ∧
    (t1 ≠ t2 → t1 ∉ buildTasks (pre ++ [t1] ++ mid ++ [t2] ++ post)) := by
  have hmain : findTask (buildTasks (pre ++ [t1] ++ mid ++ [t2] ++ post)) t2.id = some t2 := by
    unfold buildTasks
    rw [show pre ++ [t1] ++ mid ++ [t2] ++ post = (pre ++ [t1] ++ mid) ++ [t2] ++ post by
          simp [List.append_assoc]]
    rw [List.foldl_append, List.foldl_append]
    rw [findTask_foldl_insert_of_none post _ t2.id hpost]
    show findTask (insertTask _ t2) t2.id = some t2
    rw [findTask_insertTask, if_pos rfl]
  constructor
  · rw [hid]; exact hmain
  · intro hne hmem
    have := findTask_of_mem_nodup (buildTasks_nodup_ids _) hmem
    rw [hid, hmain] at this
    exact hne (Option.some.inj this.symm)

/-- Witness for `duplicate_id_last_wins`: two planned subtasks share id `"X"`;
the dict maps `"X"` to the second and the first is absent. -/
theorem duplicate_id_last_wins_witness :
    findTask
      (buildTasks [{ id := "X", description := "first", dependencies := [] },
                   { id := "X", description := "second", dependencies := [] }])
      "X" = some { id := "X", description := "second", dependencies := [] } ∧
    { id := "X", description := "first", dependencies := ([] : List String) } ∉
      buildTasks [{ id := "X", description := "first", dependencies := [] },
                  { id := "X", description := "second", dependencies := [] }] := by
  have h := duplicate_id_last_wins [] []
      [] { id := "X", description := "first", dependencies := [] }
      { id := "X", description := "second", dependencies := [] } rfl (by intro u hu; cases hu)
  simpa using ⟨h.1, h.2 (by decide)⟩

theorem depsAllCompleted_error {tasks : TaskMap} {deps : List String} {e : String}
    (h : depsAllCompleted tasks deps = Except.error e) : findTask tasks e = none := by
  induction deps with
  | nil => cases h
  | cons d rest ih =>
    simp only [depsAllCompleted] at h
    cases hf : findTask tasks d with
    | none =>
      simp only [hf] at h
      cases h
      exact hf
    | some u =>
      simp only [hf] at h
      by_cases hs : u.status = TaskStatus.completed
      · rw [if_pos hs] at h
        exact ih h
      · rw [if_neg hs] at h
        cases h

theorem readyCheck_error {tasks : TaskMap} {t : SubTask} {e : String}
    (h : readyCheck tasks t = Except.error e) : findTask tasks e = none := by
  unfold readyCheck at h
  by_cases hp : t.status = TaskStatus.pending
  · rw [if_pos hp] at h
    exact depsAllCompleted_error h
  · rw [if_neg hp] at h
    cases h

theorem computeReadyAux_error {tasks : TaskMap} {l : List SubTask} {e : String}
    (h : computeReadyAux tasks l = Except.error e) :
    ∃ s ∈ l, readyCheck tasks s = Except.error e := by
  induction l with
  | nil => cases h
  | cons s rest ih =>
    simp only [computeReadyAux] at h
    cases hc : readyCheck tasks s with
    | error d =>
      rw [hc] at h
      cases h
      exact ⟨s, List.mem_cons_self s rest, hc⟩
    | ok b =>
      rw [hc] at h
      cases b with
      | true =>
        cases hrest : computeReadyAux tasks rest with
        | error d =>
          rw [hrest] at h
          cases h
          obtain ⟨u, hu, hru⟩ := ih hrest
          exact ⟨u, List.mem_cons_of_mem s hu, hru⟩
        | ok l2 =>
          rw [hrest] at h
          cases h
      | false =>
        obtain ⟨u, hu, hru⟩ := ih h
        exact ⟨u, List.mem_cons_of_mem s hu, hru⟩

/-- C5 (amended): a task set containing a dangling dependency reference does
not get a configuration-error rejection or a cycle/deadlock diagnosis: the
very first readiness computation crashes with the unhandled missing-key lookup
(`KeyError`), surfacing some dangling id and leaving the task map untouched.
Stated here for a PENDING task whose single dependency id is absent from the
map, so the short-circuiting scan is guaranteed to reach a missing key. -/
theorem dangling_dependency_key_error (llm : String → Except String String)
    (agg : List (String × String) → String) (tasks : TaskMap) (t : SubTask) (d : String)
    (ht : t ∈ tasks) (hp : t.status = TaskStatus.pending) (hd : t.dependencies = [d])
    (hmiss : findTask tasks d = none) :
    ∃ e, runFromMap llm agg tasks = (tasks, Except.error (RunError.keyError e)) ∧
      findTask tasks e = none := by
  have hrc : readyCheck tasks t = Except.error d := by
    unfold readyCheck
    rw [if_pos hp, hd]
    simp only [depsAllCompleted, hmiss]
  have hnotok : ∀ b, readyCheck tasks t ≠ Except.ok b := by
    intro b h
    rw [hrc] at h
    cases h
  obtain ⟨e, he⟩ := computeReadyAux_error_of ht hnotok
  obtain ⟨s, _, hrs⟩ := computeReadyAux_error he
  have hdang : findTask tasks e = none := readyCheck_error hrs
  have hany : tasks.any (fun u => u.status ≠ TaskStatus.completed) = true := by
    rw [List.any_eq_true]
    exact ⟨t, ht, by simp [hp]⟩
  have hcr : computeReady tasks = Except.error e := he
  have hrun : runLoop llm (notCompletedCount tasks + 1) { tasks := tasks, results := [] } =
      (tasks, Except.error (RunError.keyError e)) := by
    rw [runLoop, if_pos hany]
    rw [show computeReady tasks = Except.error e from hcr]
  refine ⟨e, ?_, hdang⟩
  unfold runFromMap
  rw [hrun]

/-- Witness for `dangling_dependency_key_error`: the one-task map whose task
depends on the absent id `"X"`. -/
theorem dangling_dependency_key_error_witness :
    ∃ e, runFromMap (fun _ => Except.ok "r") (fun _ => "done")
        [{ id := "A", description := "a", dependencies := ["X"] }] =
      ([{ id := "A", description := "a", dependencies := ["X"] }],
        Except.error (RunError.keyError e)) ∧
      findTask [{ id := "A", description := "a", dependencies := ["X"] }] e = none :=
  dangling_dependency_key_error _ _ _
    { id := "A", description := "a", dependencies := ["X"] } "X"
    (List.mem_singleton.mpr rfl) rfl rfl rfl

/-- C5 (counterexample to the claim as stated): on the task set
`{A: deps=[X]}` with `X` absent, the run crashes with the raw missing-key
error `KeyError("X")` — not a configuration-error rejection and not the
cycle/deadlock error. -/
theorem dangling_dependency_counterexample :
    (runFromMap (fun _ => Except.ok "r") (fun _ => "done")
        [{ id := "A", description := "a", dependencies := ["X"] }]).2 =
      Except.error (RunError.keyError "X") ∧
    RunError.keyError "X" ≠ RunError.cycleDetected := ⟨rfl, by decide⟩

theorem dependencyEntries_mem {tasks : TaskMap} {t : SubTask} {d r : String} :
    (d, r) ∈ dependencyEntries tasks t ↔
      ∃ a ∈ t.dependencies, a = d ∧
        ∃ u, findTask tasks a = some u ∧ u.result = some r ∧ r ≠ "" := by
  unfold dependencyEntries
  rw [List.mem_filterMap]
  constructor
  · rintro ⟨a, ha, hfa⟩
    cases hu : findTask tasks a with
    | none =>
      simp only [hu] at hfa
      exact Option.noConfusion hfa
    | some u =>
      simp only [hu] at hfa
      cases hres : u.result with
      | none =>
        simp only [hres] at hfa
        exact Option.noConfusion hfa
      | some r0 =>
        simp only [hres] at hfa
        by_cases hr0 : r0 = ""
        · rw [if_pos hr0] at hfa
          exact Option.noConfusion hfa
        · rw [if_neg hr0] at hfa
          have h2 := Option.some.inj hfa
          rw [Prod.mk.injEq] at h2
          obtain ⟨rfl, rfl⟩ := h2
          exact ⟨a, ha, rfl, u, hu, hres, hr0⟩
  · rintro ⟨a, ha, rfl, u, hu, hres, hne⟩
    refine ⟨a, ha, ?_⟩
    simp only [hu, hres, if_neg hne]

/-- C6 (amended): at dispatch time (all dependencies COMPLETED with a stored
result), the resolved dependency-results view contains one entry per
dependency id whose stored result is a non-empty string, mapped to that
result; a dependency whose stored result is the empty string contributes no
entry at all (the `if dep_task and dep_task.result` truthiness test of
line 82 drops it), so the view is not independent of the result values. -/
theorem dependency_view_amended (tasks : TaskMap) (t : SubTask)
    (hready : ∀ d ∈ t.dependencies, ∃ u, findTask tasks d = some u ∧
      u.status = TaskStatus.completed ∧ u.result.isSome) :
    (∀ d ∈ t.dependencies, ∀ u, findTask tasks d = some u →
      ((∃ r, u.result = some r ∧ r ≠ "" ∧ (d, r) ∈ dependencyEntries tasks t) ∨
       (u.result = some "" ∧ ∀ r, (d, r) ∉ dependencyEntries tasks t))) ∧
    (∀ d r, (d, r) ∈ dependencyEntries tasks t →
      d ∈ t.dependencies ∧ ∃ u, findTask tasks d = some u ∧
        u.result = some r ∧ r ≠ "") := by
  constructor
  · intro d hd u hu
    obtain ⟨u', hu', _, hsome⟩ := hready d hd
    have heq : u = u' := by
      rw [hu] at hu'
      exact Option.some.inj hu'
    subst heq
    cases hres : u.result with
    | none => rw [hres] at hsome; cases hsome
    | some r0 =>
      by_cases hr0 : r0 = ""
      · subst hr0
        refine Or.inr ⟨rfl, ?_⟩
        intro r hr
        obtain ⟨a, _, rfl, u2, hu2, hres2, hne2⟩ := dependencyEntries_mem.mp hr
        rw [hu] at hu2
        cases hu2
        rw [hres] at hres2
        cases hres2
        exact hne2 rfl
      · exact Or.inl ⟨r0, rfl, hr0,
          dependencyEntries_mem.mpr ⟨d, hd, rfl, u, hu, hres, hr0⟩⟩
  · intro d r hr
    obtain ⟨a, ha, rfl, u, hu, hres, hne⟩ := dependencyEntries_mem.mp hr
    exact ⟨ha, u, hu, hres, hne⟩

/-- Witness for `dependency_view_amended`: one COMPLETED dependency with the
non-empty result `"ra"` yields exactly its entry. -/
theorem dependency_view_amended_witness :
    (∀ d ∈ ["A"], ∀ u,
      findTask [{ id := "A", description := "a", dependencies := [],
                  status := TaskStatus.completed, result := some "ra" },
                { id := "B", description := "b", dependencies := ["A"] }] d = some u →
      ((∃ r, u.result = some r ∧ r ≠ "" ∧ (d, r) ∈
          dependencyEntries
            [{ id := "A", description := "a", dependencies := [],
               status := TaskStatus.completed, result := some "ra" },
             { id := "B", description := "b", dependencies := ["A"] }]
            { id := "B", description := "b", dependencies := ["A"] }) ∨
       (u.result = some "" ∧ ∀ r, (d, r) ∉
          dependencyEntries
            [{ id := "A", description := "a", dependencies := [],
               status := TaskStatus.completed, result := some "ra" },
             { id := "B", description := "b", dependencies := ["A"] }]
            { id := "B", description := "b", dependencies := ["A"] }))) ∧
    (∀ d r, (d, r) ∈
        dependencyEntries
          [{ id := "A", description := "a", dependencies := [],
             status := TaskStatus.completed, result := some "ra" },
           { id := "B", description := "b", dependencies := ["A"] }]
          { id := "B", description := "b", dependencies := ["A"] } →
      d ∈ ["A"] ∧ ∃ u,
        findTask [{ id := "A", description := "a", dependencies := [],
                    status := TaskStatus.completed, result := some "ra" },
                  { id := "B", description := "b", dependencies := ["A"] }] d = some u ∧
          u.result = some r ∧ r ≠ "") :=
  dependency_view_amended _ { id := "B", description := "b", dependencies := ["A"] }
    (by decide)

/-- C6 (counterexample to the claim as stated): a dependency that is COMPLETED
with the empty-string result contributes no entry to the dependency-results
view, so the view does not contain one entry per dependency id regardless of
result values.  The exhibited state is exactly the state after round one of a
real run in which the worker returned `""` for task `A` (shown by the
`runLoop` conjunct, whose fuel of 1 exposes the state reached after the first
round). -/
theorem dependency_view_counterexample :
    readyCheck
        [{ id := "A", description := "a", dependencies := [],
           status := TaskStatus.completed, result := some "" },
         { id := "B", description := "b", dependencies := ["A"] }]
        { id := "B", description := "b", dependencies := ["A"] } = Except.ok true ∧
    dependencyEntries
        [{ id := "A", description := "a", dependencies := [],
           status := TaskStatus.completed, result := some "" },
         { id := "B", description := "b", dependencies := ["A"] }]
        { id := "B", description := "b", dependencies := ["A"] } = [] ∧
    ([] : List (String × String)) ≠ [("A", "")] ∧
    (runLoop (fun _ => Except.ok "") 1
        { tasks := [{ id := "A", description := "a", dependencies := [] },
                    { id := "B", description := "b", dependencies := ["A"] }],
          results := [] }).1 =
      [{ id := "A", description := "a", dependencies := [],
         status := TaskStatus.completed, result := some "" },
       { id := "B", description := "b", dependencies := ["A"] }] := by
  refine ⟨rfl, rfl, by decide, rfl⟩

/-- Two task-map entries agree on the immutable fields (the scheduler only
ever rewrites `status` and `result`). -/
def sameSkel (a b : SubTask) : Prop :=
  b.id = a.id ∧ b.description = a.description ∧ b.dependencies = a.dependencies

theorem sameSkel_refl (a : SubTask) : sameSkel a a := ⟨rfl, rfl, rfl⟩

theorem sameSkel_trans {a b c : SubTask} (h1 : sameSkel a b) (h2 : sameSkel b c) :
    sameSkel a c :=
  ⟨h2.1.trans h1.1, h2.2.1.trans h1.2.1, h2.2.2.trans h1.2.2⟩

theorem forall₂_sameSkel_refl (l : TaskMap) : List.Forall₂ sameSkel l l := by
  induction l with
  | nil => exact List.Forall₂.nil
  | cons a rest ih => exact List.Forall₂.cons (sameSkel_refl a) ih

theorem forall₂_sameSkel_trans {a b c : TaskMap}
    (h1 : List.Forall₂ sameSkel a b) (h2 : List.Forall₂ sameSkel b c) :
    List.Forall₂ sameSkel a c := by
  induction h1 generalizing c with
  | nil =>
    cases h2
    exact List.Forall₂.nil
  | cons hab h1' ih =>
    cases h2 with
    | cons hbc h2' => exact List.Forall₂.cons (sameSkel_trans hab hbc) (ih h2')

theorem forall₂_mem_right {α β : Type} {R : α → β → Prop} {a : List α} {b : List β}
    (h : List.Forall₂ R a b) {y : β} (hy : y ∈ b) : ∃ x ∈ a, R x y := by
  induction h with
  | nil => cases hy
  | cons hxy h' ih =>
    rcases List.mem_cons.mp hy with h1 | h1
    · subst h1
      exact ⟨_, List.mem_cons_self _ _, hxy⟩
    · obtain ⟨x, hx, hr⟩ := ih h1
      exact ⟨x, List.mem_cons_of_mem _ hx, hr⟩

theorem forall₂_sameSkel_map_id {a b : TaskMap} (h : List.Forall₂ sameSkel a b) :
    b.map SubTask.id = a.map SubTask.id := by
  induction h with
  | nil => rfl
  | cons hab h' ih => simp only [List.map_cons, hab.1, ih]

theorem forall₂_findTask_some {a b : TaskMap} (h : List.Forall₂ sameSkel a b)
    {i : String} {x : SubTask} (hx : findTask a i = some x) :
    ∃ y, findTask b i = some y ∧ sameSkel x y := by
  induction h with
  | nil => cases hx
  | cons hab h' ih =>
    rename_i u v us vs
    rw [findTask_cons] at hx
    rw [findTask_cons, hab.1]
    by_cases hu : u.id = i
    · rw [if_pos hu] at hx
      rw [if_pos hu]
      cases hx
      exact ⟨v, rfl, hab⟩
    · rw [if_neg hu] at hx
      rw [if_neg hu]
      exact ih hx

theorem findTask_isSome_iff (m : TaskMap) (i : String) :
    (findTask m i).isSome ↔ i ∈ m.map SubTask.id := by
  unfold findTask
  rw [List.find?_isSome]
  constructor
  · rintro ⟨t, ht, hp⟩
    exact List.mem_map.mpr ⟨t, ht, of_decide_eq_true hp⟩
  · rintro hm
    obtain ⟨t, ht, hid⟩ := List.mem_map.mp hm
    exact ⟨t, ht, by simp [hid]⟩

theorem closedDeps_of_skel {tasks0 m : TaskMap}
    (h : List.Forall₂ sameSkel tasks0 m) (hc : ClosedDeps tasks0) : ClosedDeps m := by
  intro t ht d hd
  obtain ⟨t0, ht0, hsk⟩ := forall₂_mem_right h ht
  obtain ⟨u, hu⟩ := hc t0 ht0 d (hsk.2.2 ▸ hd)
  have hs : (findTask m d).isSome := by
    rw [findTask_isSome_iff, forall₂_sameSkel_map_id h, ← findTask_isSome_iff, hu]
    rfl
  cases hm : findTask m d with
  | none => rw [hm] at hs; cases hs
  | some v => exact ⟨v, rfl⟩

theorem isDagRanked_of_skel {tasks0 m : TaskMap}
    (h : List.Forall₂ sameSkel tasks0 m) (hd : IsDagRanked tasks0) : IsDagRanked m := by
  obtain ⟨rank, hrank⟩ := hd
  refine ⟨rank, ?_⟩
  intro t ht d hdep
  obtain ⟨t0, ht0, hsk⟩ := forall₂_mem_right h ht
  rw [hsk.1]
  exact hrank t0 ht0 d (hsk.2.2 ▸ hdep)

theorem eq_of_mem_nodup_ids {m : TaskMap} (hn : (m.map SubTask.id).Nodup)
    {u v : SubTask} (hu : u ∈ m) (hv : v ∈ m) (h : u.id = v.id) : u = v := by
  have h1 := findTask_of_mem_nodup hn hu
  have h2 := findTask_of_mem_nodup hn hv
  rw [h] at h1
  rw [h1] at h2
  exact Option.some.inj h2

theorem computeReadyAux_sublist {tasks : TaskMap} {l out : List SubTask}
    (h : computeReadyAux tasks l = Except.ok out) : out.Sublist l := by
  induction l generalizing out with
  | nil =>
    simp only [computeReadyAux] at h
    cases h
    exact List.Sublist.refl []
  | cons s rest ih =>
    simp only [computeReadyAux] at h
    cases hc : readyCheck tasks s with
    | error d => rw [hc] at h; cases h
    | ok b =>
      rw [hc] at h
      cases b with
      | true =>
        cases hrest : computeReadyAux tasks rest with
        | error d => rw [hrest] at h; cases h
        | ok l2 =>
          rw [hrest] at h
          cases h
          exact List.Sublist.cons₂ s (ih hrest)
      | false => exact List.Sublist.cons s (ih h)

theorem exists_min_on {α : Type} (f : α → Nat) (l : List α) (hne : l ≠ []) :
    ∃ a ∈ l, ∀ b ∈ l, f a ≤ f b := by
  induction l with
  | nil => exact absurd rfl hne
  | cons x rest ih =>
    cases rest with
    | nil =>
      refine ⟨x, List.mem_cons_self _ _, ?_⟩
      intro b hb
      rcases List.mem_cons.mp hb with h | h
      · rw [h]
      · cases h
    | cons y ys =>
      obtain ⟨a, ha, hmin⟩ := ih (by simp)
      by_cases hc : f x ≤ f a
      · refine ⟨x, List.mem_cons_self _ _, ?_⟩
        intro b hb
        rcases List.mem_cons.mp hb with h | h
        · rw [h]
        · exact le_trans hc (hmin b h)
      · refine ⟨a, List.mem_cons_of_mem _ ha, ?_⟩
        intro b hb
        rcases List.mem_cons.mp hb with h | h
        · rw [h]; exact le_of_not_le hc
        · exact hmin b h

/-- DAG progress: while every task is PENDING or COMPLETED and some task is
PENDING, a PENDING task of minimal rank is ready. -/
theorem ready_nonempty_of_dag {tasks : TaskMap}
    (hclosed : ClosedDeps tasks) (hdag : IsDagRanked tasks)
    (hstat : ∀ t ∈ tasks, t.status = TaskStatus.pending ∨ t.status = TaskStatus.completed)
    (hpend : ∃ t ∈ tasks, t.status = TaskStatus.pending) :
    ∃ t ∈ tasks, readyCheck tasks t = Except.ok true := by
  obtain ⟨rank, hrank⟩ := hdag
  obtain ⟨t0, ht0, hp0⟩ := hpend
  have hPne : tasks.filter (fun t => t.status = TaskStatus.pending) ≠ [] := by
    intro hnil
    have : t0 ∈ tasks.filter (fun t => t.status = TaskStatus.pending) :=
      List.mem_filter.mpr ⟨ht0, by simp [hp0]⟩
    rw [hnil] at this
    cases this
  obtain ⟨t, htmem, hmin⟩ :=
    exists_min_on (fun t => rank t.id) (tasks.filter (fun t => t.status = TaskStatus.pending)) hPne
  have ht : t ∈ tasks := (List.mem_filter.mp htmem).1
  have hp : t.status = TaskStatus.pending :=
    of_decide_eq_true (List.mem_filter.mp htmem).2
  refine ⟨t, ht, readyCheck_ok_true_iff.mpr ⟨hp, ?_⟩⟩
  intro d hd
  obtain ⟨u, hu⟩ := hclosed t ht d hd
  have humem := (findTask_eq_some hu).1
  have huid := (findTask_eq_some hu).2
  refine ⟨u, hu, ?_⟩
  rcases hstat u humem with hus | hus
  · exfalso
    have humin : u ∈ tasks.filter (fun t => t.status = TaskStatus.pending) :=
      List.mem_filter.mpr ⟨humem, by simp [hus]⟩
    have hle := hmin u humin
    have hlt : rank d < rank t.id := hrank t ht d hd
    rw [huid] at hle
    omega
  · exact hus

theorem markInProgress_findTask (m : TaskMap) (ids : List String) (i : String) :
    findTask (markInProgress m ids) i = (findTask m i).map (fun t =>
      if t.id ∈ ids then { t with status := TaskStatus.in_progress } else t) := by
  unfold markInProgress
  apply findTask_map
  intro u
  by_cases h : u.id ∈ ids <;> simp [h]

theorem markFailed_findTask (m : TaskMap) (ids : List String) (i : String) :
    findTask (markFailed m ids) i = (findTask m i).map (fun t =>
      if t.id ∈ ids then { t with status := TaskStatus.failed } else t) := by
  unfold markFailed
  apply findTask_map
  intro u
  by_cases h : u.id ∈ ids <;> simp [h]

theorem completeBatch_findTask (m : TaskMap) (pairs : List (String × String)) (i : String) :
    findTask (completeBatch m pairs) i = (findTask m i).map (fun t =>
      match pairs.find? (fun p => p.1 = t.id) with
      | some p => { t with status := TaskStatus.completed, result := some p.2 }
      | none => t) := by
  unfold completeBatch
  apply findTask_map
  intro u
  cases h : pairs.find? (fun p => p.1 = u.id) with
  | some p => simp [h]
  | none => simp [h]

theorem forall₂_sameSkel_map {m : TaskMap} {f : SubTask → SubTask}
    (hf : ∀ t, sameSkel t (f t)) : List.Forall₂ sameSkel m (m.map f) := by
  induction m with
  | nil => exact List.Forall₂.nil
  | cons a rest ih => exact List.Forall₂.cons (hf a) ih

theorem completeBatch_skel (m : TaskMap) (pairs : List (String × String)) :
    List.Forall₂ sameSkel m (completeBatch m pairs) := by
  unfold completeBatch
  apply forall₂_sameSkel_map
  intro t
  cases h : pairs.find? (fun p => p.1 = t.id) with
  | some p =>
    simp only [h]
    exact ⟨rfl, rfl, rfl⟩
  | none =>
    simp only [h]
    exact sameSkel_refl t

/-- Marking a batch IN_PROGRESS and then completing exactly that batch equals
completing the batch directly: the intermediate status is overwritten. -/
theorem completeBatch_markInProgress (m : TaskMap) (ids : List String)
    (pairs : List (String × String)) (h : pairs.map Prod.fst = ids) :
    completeBatch (markInProgress m ids) pairs = completeBatch m pairs := by
  unfold completeBatch markInProgress
  rw [List.map_map]
  apply List.map_congr_left
  intro t _
  simp only [Function.comp]
  by_cases hmem : t.id ∈ ids
  · simp only [if_pos hmem]
    have hsome : (pairs.find? (fun p => p.1 = t.id)).isSome := by
      rw [List.find?_isSome]
      rw [← h] at hmem
      obtain ⟨p, hp, hfst⟩ := List.mem_map.mp hmem
      exact ⟨p, hp, by simp [hfst]⟩
    cases hf : pairs.find? (fun p => p.1 = t.id) with
    | none => rw [hf] at hsome; cases hsome
    | some p => simp [hf]
  · simp only [if_neg hmem]

theorem filter_length_map_le {α : Type} (l : List α) (g : α → α) (p : α → Bool)
    (h : ∀ a ∈ l, p (g a) = true → p a = true) :
    ((l.map g).filter p).length ≤ (l.filter p).length := by
  induction l with
  | nil => simp
  | cons a rest ih =>
    have ih' := ih (fun b hb => h b (List.mem_cons_of_mem a hb))
    rw [List.map_cons]
    cases hga : p (g a) with
    | true =>
      rw [List.filter_cons_of_pos hga,
        List.filter_cons_of_pos (h a (List.mem_cons_self a rest) hga)]
      simpa using ih'
    | false =>
      rw [List.filter_cons_of_neg (by simp [hga])]
      cases hpa : p a with
      | true =>
        rw [List.filter_cons_of_pos hpa]
        exact le_trans ih' (Nat.le_succ _)
      | false =>
        rw [List.filter_cons_of_neg (by simp [hpa])]
        exact ih'

theorem filter_length_map_lt {α : Type} (l : List α) (g : α → α) (p : α → Bool)
    (h : ∀ a ∈ l, p (g a) = true → p a = true)
    (a0 : α) (ha0 : a0 ∈ l) (hp : p a0 = true) (hgp : p (g a0) = false) :
    ((l.map g).filter p).length < (l.filter p).length := by
  induction l with
  | nil => cases ha0
  | cons a rest ih =>
    rw [List.map_cons]
    rcases List.mem_cons.mp ha0 with he | he
    · subst he
      rw [List.filter_cons_of_neg (by simp [hgp]), List.filter_cons_of_pos hp]
      exact Nat.lt_succ_of_le
        (filter_length_map_le rest g p (fun b hb => h b (List.mem_cons_of_mem a0 hb)))
    · have ih' := ih (fun b hb => h b (List.mem_cons_of_mem a hb)) he
      cases hga : p (g a) with
      | true =>
        rw [List.filter_cons_of_pos hga,
          List.filter_cons_of_pos (h a (List.mem_cons_self a rest) hga)]
        simpa using ih'
      | false =>
        rw [List.filter_cons_of_neg (by simp [hga])]
        cases hpa : p a with
        | true =>
          rw [List.filter_cons_of_pos hpa]
          exact Nat.lt_succ_of_lt ih'
        | false =>
          rw [List.filter_cons_of_neg (by simp [hpa])]
          exact ih'

theorem completeBatch_measure_lt {tasks : TaskMap} {pairs : List (String × String)}
    {r : SubTask} (hr : r ∈ tasks) (hp : r.status = TaskStatus.pending)
    (hrid : r.id ∈ pairs.map Prod.fst) :
    notCompletedCount (completeBatch tasks pairs) < notCompletedCount tasks := by
  unfold notCompletedCount completeBatch
  refine filter_length_map_lt _ _ _ ?_ r hr ?_ ?_
  · intro a _ hpa
    revert hpa
    split
    · intro hpa
      simp at hpa
    · intro hpa
      exact hpa
  · simp [hp]
  · have hsome : (pairs.find? (fun p => p.1 = r.id)).isSome := by
      rw [List.find?_isSome]
      obtain ⟨p, hpm, hfst⟩ := List.mem_map.mp hrid
      exact ⟨p, hpm, by simp [hfst]⟩
    show decide _ = false
    split
    · simp
    · rename_i hnone
      rw [hnone] at hsome
      cases hsome

theorem batchOutcomes_map_fst (llm : String → Except String String) (m : TaskMap)
    (batch : List SubTask) :
    (batchOutcomes llm m batch).map Prod.fst = batch.map SubTask.id := by
  unfold batchOutcomes
  rw [List.map_map]
  rfl

theorem firstFailure_none_iff {l : List (String × Except String String)} :
    firstFailure l = none ↔ ∀ p ∈ l, ∃ r, p.2 = Except.ok r := by
  induction l with
  | nil => simp [firstFailure]
  | cons p rest ih =>
    cases p with
    | mk i o =>
      cases o with
      | ok r =>
        simp only [firstFailure, ih]
        constructor
        · intro h q hq
          rcases List.mem_cons.mp hq with h1 | h1
          · subst h1; exact ⟨r, rfl⟩
          · exact h q h1
        · intro h q hq
          exact h q (List.mem_cons_of_mem _ hq)
      | error m =>
        simp only [firstFailure]
        constructor
        · intro h; cases h
        · intro h
          obtain ⟨r, hr⟩ := h (i, Except.error m) (List.mem_cons_self _ _)
          cases hr

theorem okPairs_map_fst {l : List (String × Except String String)}
    (h : ∀ p ∈ l, ∃ r, p.2 = Except.ok r) :
    (okPairs l).map Prod.fst = l.map Prod.fst := by
  induction l with
  | nil => rfl
  | cons p rest ih =>
    have ih' := ih (fun q hq => h q (List.mem_cons_of_mem _ hq))
    cases p with
    | mk i o =>
      obtain ⟨r, hr⟩ := h (i, o) (List.mem_cons_self _ _)
      simp only at hr
      subst hr
      show ((okPairs ((i, Except.ok r) :: rest)).map Prod.fst) = _
      rw [show okPairs ((i, Except.ok r) :: rest) = (i, r) :: okPairs rest from rfl,
        List.map_cons, List.map_cons, ih']

theorem find?_fst_of_mem_nodup {pairs : List (String × String)}
    (hn : (pairs.map Prod.fst).Nodup) {p : String × String} (hp : p ∈ pairs) :
    pairs.find? (fun q => q.1 = p.1) = some p := by
  induction pairs with
  | nil => cases hp
  | cons q rest ih =>
    simp only [List.map_cons, List.nodup_cons] at hn
    rcases List.mem_cons.mp hp with h | h
    · subst h
      simp [List.find?_cons]
    · have hne : ¬ q.1 = p.1 := by
        intro he
        exact hn.1 (he ▸ List.mem_map.mpr ⟨p, h, rfl⟩)
      rw [List.find?_cons_of_neg _ (by simp [hne])]
      exact ih hn.2 h

theorem updateResults_eq_append {results pairs : List (String × String)}
    (hdisj : ∀ p ∈ pairs, p.1 ∉ results.map Prod.fst)
    (hnodup : (pairs.map Prod.fst).Nodup) :
    updateResults results pairs = results ++ pairs := by
  induction pairs generalizing results with
  | nil => simp [updateResults]
  | cons p rest ih =>
    cases p with
    | mk i r =>
      simp only [List.map_cons, List.nodup_cons] at hnodup
      have hany : results.any (fun q => q.1 = i) = false := by
        rw [List.any_eq_false]
        intro q hq
        simp only [decide_eq_true_eq]
        intro he
        exact hdisj (i, r) (List.mem_cons_self _ _)
          (List.mem_map.mpr ⟨q, hq, he⟩)
      show updateResults (setResult results i r) rest = _
      rw [show setResult results i r = results ++ [(i, r)] by
        unfold setResult
        rw [if_neg (by simp [hany])]]
      rw [ih ?_ hnodup.2]
      · simp
      · intro q hq
        simp only [List.map_append, List.mem_append]
        rintro (h1 | h1)
        · exact hdisj q (List.mem_cons_of_mem _ hq) h1
        · have : q.1 = i := by simpa using h1
          exact hnodup.1 (this ▸ List.mem_map.mpr ⟨q, hq, rfl⟩)

theorem runLoop_done (llm : String → Except String String) (fuel : Nat) (st : St)
    (hany : st.tasks.any (fun t => t.status ≠ TaskStatus.completed) = false) :
    runLoop llm (fuel + 1) st = (st.tasks, Except.ok st.results) := by
  have hne : ¬ (st.tasks.any (fun t => t.status ≠ TaskStatus.completed) = true) := by
    rw [hany]
    exact Bool.false_ne_true
  rw [runLoop, if_neg hne]

theorem runLoop_cycle_eq (llm : String → Except String String) (fuel : Nat) (st : St)
    (hany : st.tasks.any (fun t => t.status ≠ TaskStatus.completed) = true)
    (hcr : computeReady st.tasks = Except.ok [])
    (hfail : st.tasks.any (fun t => t.status = TaskStatus.failed) = false)
    (hpend : st.tasks.any (fun t => t.status = TaskStatus.pending) = true) :
    runLoop llm (fuel + 1) st = (st.tasks, Except.error RunError.cycleDetected) := by
  rw [runLoop, if_pos hany, hcr]
  simp only [hfail, hpend]
  rfl

theorem runLoop_batch_fail (llm : String → Except String String) (fuel : Nat) (st : St)
    (r : SubTask) (rs : List SubTask) (i m : String)
    (hany : st.tasks.any (fun t => t.status ≠ TaskStatus.completed) = true)
    (hcr : computeReady st.tasks = Except.ok (r :: rs))
    (hff : firstFailure (batchOutcomes llm
      (markInProgress st.tasks ((r :: rs).map SubTask.id)) (r :: rs)) = some (i, m)) :
    runLoop llm (fuel + 1) st =
      (markFailed (markInProgress st.tasks ((r :: rs).map SubTask.id))
        (failedIds (batchOutcomes llm
          (markInProgress st.tasks ((r :: rs).map SubTask.id)) (r :: rs))),
       Except.error (RunError.taskFailed i m)) := by
  rw [runLoop, if_pos hany, hcr]
  simp only [hff]

theorem runLoop_batch_ok (llm : String → Except String String) (fuel : Nat) (st : St)
    (r : SubTask) (rs : List SubTask)
    (hany : st.tasks.any (fun t => t.status ≠ TaskStatus.completed) = true)
    (hcr : computeReady st.tasks = Except.ok (r :: rs))
    (hff : firstFailure (batchOutcomes llm
      (markInProgress st.tasks ((r :: rs).map SubTask.id)) (r :: rs)) = none) :
    runLoop llm (fuel + 1) st = runLoop llm fuel
      { tasks := completeBatch (markInProgress st.tasks ((r :: rs).map SubTask.id))
          (okPairs (batchOutcomes llm
            (markInProgress st.tasks ((r :: rs).map SubTask.id)) (r :: rs))),
        results := updateResults st.results
          (okPairs (batchOutcomes llm
            (markInProgress st.tasks ((r :: rs).map SubTask.id)) (r :: rs))) } := by
  rw [runLoop, if_pos hany, hcr]
  simp only [hff]

theorem computeReady_ok_mem {tasks : TaskMap} {out : List SubTask}
    (h : computeReady tasks = Except.ok out) (t : SubTask) :
    t ∈ out ↔ t ∈ tasks ∧ readyCheck tasks t = Except.ok true :=
  computeReadyAux_ok_mem h t

theorem computeReady_sublist {tasks : TaskMap} {out : List SubTask}
    (h : computeReady tasks = Except.ok out) : out.Sublist tasks :=
  computeReadyAux_sublist h

theorem completeBatch_mem {m : TaskMap} {pairs : List (String × String)} {t' : SubTask}
    (h : t' ∈ completeBatch m pairs) :
    ∃ t ∈ m, ((pairs.find? (fun q => q.1 = t.id) = none ∧ t' = t) ∨
      ∃ p, pairs.find? (fun q => q.1 = t.id) = some p ∧
        t' = { t with status := TaskStatus.completed, result := some p.2 }) := by
  unfold completeBatch at h
  obtain ⟨t, ht, heq⟩ := List.mem_map.mp h
  refine ⟨t, ht, ?_⟩
  cases hf : pairs.find? (fun q => q.1 = t.id) with
  | none =>
    left
    refine ⟨rfl, ?_⟩
    rw [← heq]
    simp only [hf]
  | some p =>
    right
    refine ⟨p, rfl, ?_⟩
    rw [← heq]
    simp only [hf]

theorem completeBatch_mem_of {m : TaskMap} (pairs : List (String × String)) {t : SubTask}
    (ht : t ∈ m) :
    (match pairs.find? (fun q => q.1 = t.id) with
      | some p => { t with status := TaskStatus.completed, result := some p.2 }
      | none => t) ∈ completeBatch m pairs := by
  unfold completeBatch
  exact List.mem_map.mpr ⟨t, ht, rfl⟩

/-- The invariant maintained by the loop of `execute_task` while no worker has
failed: task skeletons are fixed, statuses are PENDING or COMPLETED, `result`
is set exactly on the COMPLETED tasks, and the local `results` dict holds
exactly the COMPLETED ids. -/
structure Inv (tasks0 : TaskMap) (st : St) : Prop where
  skel : List.Forall₂ sameSkel tasks0 st.tasks
  statuses : ∀ t ∈ st.tasks, t.status = TaskStatus.pending ∨ t.status = TaskStatus.completed
  pres : ∀ t ∈ st.tasks, t.status = TaskStatus.pending → t.result = none
  cres : ∀ t ∈ st.tasks, t.status = TaskStatus.completed → t.result.isSome
  keys : (st.results.map Prod.fst).Nodup
  keysIff : ∀ i, i ∈ st.results.map Prod.fst ↔
    ∃ t ∈ st.tasks, t.id = i ∧ t.status = TaskStatus.completed
  vals : ∀ p ∈ st.results, ∃ t ∈ st.tasks, t.id = p.1 ∧ t.result = some p.2

theorem inv_step {tasks0 : TaskMap} {st : St} {r : SubTask} {rs : List SubTask}
    {pairs : List (String × String)}
    (hinv : Inv tasks0 st)
    (hnodup0 : (tasks0.map SubTask.id).Nodup)
    (hcr : computeReady st.tasks = Except.ok (r :: rs))
    (hfst : pairs.map Prod.fst = (r :: rs).map SubTask.id) :
    Inv tasks0 { tasks := completeBatch st.tasks pairs,
                 results := updateResults st.results pairs } := by
  have hnodupSt : (st.tasks.map SubTask.id).Nodup := by
    rw [forall₂_sameSkel_map_id hinv.skel]
    exact hnodup0
  have hready : ∀ t ∈ r :: rs, t ∈ st.tasks ∧ t.status = TaskStatus.pending := by
    intro t ht
    have h1 := (computeReady_ok_mem hcr t).mp ht
    exact ⟨h1.1, (readyCheck_ok_true_iff.mp h1.2).1⟩
  have hpairsNodup : (pairs.map Prod.fst).Nodup := by
    rw [hfst]
    exact ((computeReady_sublist hcr).map SubTask.id).nodup hnodupSt
  have hkeymem : ∀ i, i ∈ pairs.map Prod.fst → ∃ v ∈ st.tasks,
      v.id = i ∧ v.status = TaskStatus.pending := by
    intro i hi
    rw [hfst] at hi
    obtain ⟨v, hv, hvid⟩ := List.mem_map.mp hi
    exact ⟨v, (hready v hv).1, hvid, (hready v hv).2⟩
  have hdisj : ∀ p ∈ pairs, p.1 ∉ st.results.map Prod.fst := by
    intro p hp hmem
    obtain ⟨tc, htc, htcid, htcst⟩ := (hinv.keysIff p.1).mp hmem
    obtain ⟨v, hv, hvid, hvst⟩ := hkeymem p.1 (List.mem_map.mpr ⟨p, hp, rfl⟩)
    have : v = tc := eq_of_mem_nodup_ids hnodupSt hv htc (by rw [hvid, htcid])
    rw [this, htcst] at hvst
    cases hvst
  have hupd : updateResults st.results pairs = st.results ++ pairs :=
    updateResults_eq_append hdisj hpairsNodup
  have hdisj2 : ∀ i, i ∈ pairs.map Prod.fst → i ∉ st.results.map Prod.fst := by
    intro i hi
    obtain ⟨p, hp, hpe⟩ := List.mem_map.mp hi
    rw [← hpe]
    exact hdisj p hp
  refine ⟨?_, ?_, ?_, ?_, ?_, ?_, ?_⟩
  · exact forall₂_sameSkel_trans hinv.skel (completeBatch_skel st.tasks pairs)
  · intro t' ht'
    obtain ⟨t, ht, hc⟩ := completeBatch_mem ht'
    rcases hc with ⟨hnone, heq⟩ | ⟨p, hfp, heq⟩
    · subst heq
      exact hinv.statuses _ ht
    · subst heq
      exact Or.inr rfl
  · intro t' ht' hp'
    obtain ⟨t, ht, hc⟩ := completeBatch_mem ht'
    rcases hc with ⟨hnone, heq⟩ | ⟨p, hfp, heq⟩
    · subst heq
      exact hinv.pres _ ht hp'
    · subst heq
      cases hp'
  · intro t' ht' hc'
    obtain ⟨t, ht, hc⟩ := completeBatch_mem ht'
    rcases hc with ⟨hnone, heq⟩ | ⟨p, hfp, heq⟩
    · subst heq
      exact hinv.cres _ ht hc'
    · subst heq
      rfl
  · show ((updateResults st.results pairs).map Prod.fst).Nodup
    rw [hupd, List.map_append, List.nodup_append]
    exact ⟨hinv.keys, hpairsNodup, fun a ha hb => hdisj2 a hb ha⟩
  · intro i
    show i ∈ (updateResults st.results pairs).map Prod.fst ↔ _
    rw [hupd, List.map_append, List.mem_append]
    constructor
    · rintro (h1 | h1)
      · obtain ⟨tc, htc, htcid, htcst⟩ := (hinv.keysIff i).mp h1
        have hfnone : pairs.find? (fun q => q.1 = tc.id) = none := by
          rw [List.find?_eq_none]
          intro q hq
          simp only [decide_eq_true_eq]
          intro he
          exact hdisj q hq (he ▸ htcid ▸ h1)
        have := completeBatch_mem_of pairs htc
        rw [hfnone] at this
        exact ⟨tc, this, htcid, htcst⟩
      · obtain ⟨v, hv, hvid, _⟩ := hkeymem i h1
        have hfsome : (pairs.find? (fun q => q.1 = v.id)).isSome := by
          rw [List.find?_isSome]
          obtain ⟨p, hp, hpe⟩ := List.mem_map.mp h1
          exact ⟨p, hp, by simp [hpe, hvid]⟩
        cases hf : pairs.find? (fun q => q.1 = v.id) with
        | none => rw [hf] at hfsome; cases hfsome
        | some p =>
          have := completeBatch_mem_of pairs hv
          rw [hf] at this
          exact ⟨_, this, hvid, rfl⟩
    · rintro ⟨t', ht', htid, htst⟩
      obtain ⟨t, ht, hc⟩ := completeBatch_mem ht'
      rcases hc with ⟨hnone, heq⟩ | ⟨p, hfp, heq⟩
      · subst heq
        exact Or.inl ((hinv.keysIff i).mpr ⟨_, ht, htid, htst⟩)
      · subst heq
        right
        have hpmem := List.mem_of_find?_eq_some hfp
        have hpfst : p.1 = t.id := by
          have h2 := List.find?_some hfp
          simpa using h2
        rw [← htid]
        show t.id ∈ pairs.map Prod.fst
        rw [← hpfst]
        exact List.mem_map.mpr ⟨p, hpmem, rfl⟩
  · intro p' hp'
    rw [hupd] at hp'
    rcases List.mem_append.mp hp' with h1 | h1
    · obtain ⟨tc, htc, htcid, htcres⟩ := hinv.vals p' h1
      have hkey : p'.1 ∈ st.results.map Prod.fst := List.mem_map.mpr ⟨p', h1, rfl⟩
      obtain ⟨tc2, htc2, htc2id, htc2st⟩ := (hinv.keysIff p'.1).mp hkey
      have : tc2 = tc := eq_of_mem_nodup_ids hnodupSt htc2 htc (by rw [htc2id, htcid])
      subst this
      have hfnone : pairs.find? (fun q => q.1 = tc2.id) = none := by
        rw [List.find?_eq_none]
        intro q hq
        simp only [decide_eq_true_eq]
        intro he
        exact hdisj q hq (he ▸ htc2id ▸ hkey)
      have := completeBatch_mem_of pairs htc
      rw [hfnone] at this
      exact ⟨tc2, this, htcid, htcres⟩
    · obtain ⟨v, hv, hvid, _⟩ := hkeymem p'.1 (List.mem_map.mpr ⟨p', h1, rfl⟩)
      have hfp : pairs.find? (fun q => q.1 = v.id) = some p' := by
        rw [hvid]
        exact find?_fst_of_mem_nodup hpairsNodup h1
      have := completeBatch_mem_of pairs hv
      rw [hfp] at this
      exact ⟨_, this, hvid, rfl⟩

theorem runLoop_dag_ok (tasks0 : TaskMap) (llm : String → Except String String)
    (hclosed : ClosedDeps tasks0) (hnodup0 : (tasks0.map SubTask.id).Nodup)
    (hdag : IsDagRanked tasks0)
    (hllm : ∀ s, ∃ r, llm s = Except.ok r) :
    ∀ fuel (st : St), Inv tasks0 st → notCompletedCount st.tasks < fuel →
    ∃ ft results, runLoop llm fuel st = (ft, Except.ok results) ∧
      List.Forall₂ sameSkel tasks0 ft ∧
      (∀ t ∈ ft, t.status = TaskStatus.completed ∧ t.result.isSome) ∧
      (results.map Prod.fst).Nodup ∧
      (∀ i, i ∈ results.map Prod.fst ↔ i ∈ tasks0.map SubTask.id) ∧
      (∀ p ∈ results, ∃ t ∈ ft, t.id = p.1 ∧ t.result = some p.2) := by
  intro fuel
  induction fuel with
  | zero =>
    intro st _ hlt
    exact absurd hlt (Nat.not_lt_zero _)
  | succ fuel ih =>
    intro st hinv hlt
    by_cases hany : st.tasks.any (fun t => t.status ≠ TaskStatus.completed) = true
    · -- some task is not yet completed: it is pending, so the DAG yields a batch
      obtain ⟨t0, ht0, ht0ne⟩ := List.any_eq_true.mp hany
      have ht0ne' : t0.status ≠ TaskStatus.completed := of_decide_eq_true ht0ne
      have ht0p : t0.status = TaskStatus.pending := by
        rcases hinv.statuses t0 ht0 with h | h
        · exact h
        · exact absurd h ht0ne'
      have hclosedSt : ClosedDeps st.tasks := closedDeps_of_skel hinv.skel hclosed
      have hdagSt : IsDagRanked st.tasks := isDagRanked_of_skel hinv.skel hdag
      obtain ⟨tr, htr, htrr⟩ :=
        ready_nonempty_of_dag hclosedSt hdagSt hinv.statuses ⟨t0, ht0, ht0p⟩
      have htot : ∀ t ∈ st.tasks, ∃ b, readyCheck st.tasks t = Except.ok b :=
        fun t ht => readyCheck_total (fun d hd => hclosedSt t ht d hd)
      obtain ⟨out, hout⟩ := computeReadyAux_total htot
      have hout' : computeReady st.tasks = Except.ok out := hout
      have htr_mem : tr ∈ out := (computeReady_ok_mem hout' tr).mpr ⟨htr, htrr⟩
      cases houtc : out with
      | nil =>
        rw [houtc] at htr_mem
        cases htr_mem
      | cons r rs =>
        rw [houtc] at hout'
        have hallok : ∀ p ∈ batchOutcomes llm
            (markInProgress st.tasks ((r :: rs).map SubTask.id)) (r :: rs),
            ∃ q, p.2 = Except.ok q := by
          intro p hp
          obtain ⟨v, hv, hpe⟩ := List.mem_map.mp hp
          obtain ⟨q, hq⟩ :=
            hllm (executionPrompt (markInProgress st.tasks ((r :: rs).map SubTask.id)) v)
          rw [← hpe]
          exact ⟨q, hq⟩
        have hff : firstFailure (batchOutcomes llm
            (markInProgress st.tasks ((r :: rs).map SubTask.id)) (r :: rs)) = none :=
          firstFailure_none_iff.mpr hallok
        have hfst : (okPairs (batchOutcomes llm
            (markInProgress st.tasks ((r :: rs).map SubTask.id)) (r :: rs))).map Prod.fst =
            (r :: rs).map SubTask.id := by
          rw [okPairs_map_fst hallok, batchOutcomes_map_fst]
        have heq := runLoop_batch_ok llm fuel st r rs hany hout' hff
        rw [completeBatch_markInProgress st.tasks _ _ hfst] at heq
        have hinv' := inv_step hinv hnodup0 hout' hfst
        have hrmem := (computeReady_ok_mem hout' r).mp (List.mem_cons_self r rs)
        have hrp : r.status = TaskStatus.pending := (readyCheck_ok_true_iff.mp hrmem.2).1
        have hmeas : notCompletedCount (completeBatch st.tasks
            (okPairs (batchOutcomes llm
              (markInProgress st.tasks ((r :: rs).map SubTask.id)) (r :: rs)))) <
            notCompletedCount st.tasks := by
          refine completeBatch_measure_lt hrmem.1 hrp ?_
          rw [hfst]
          exact List.mem_map.mpr ⟨r, List.mem_cons_self r rs, rfl⟩
        have hlt' : notCompletedCount (completeBatch st.tasks
            (okPairs (batchOutcomes llm
              (markInProgress st.tasks ((r :: rs).map SubTask.id)) (r :: rs)))) < fuel := by
          omega
        obtain ⟨ft, results, hrun, hskel, hcomp, hkeys, hkeysIff, hvals⟩ :=
          ih _ hinv' hlt'
        exact ⟨ft, results, heq.trans hrun, hskel, hcomp, hkeys, hkeysIff, hvals⟩
    · -- every task is completed: the loop exits successfully
      have hany' : st.tasks.any (fun t => t.status ≠ TaskStatus.completed) = false :=
        Bool.of_not_eq_true hany
      have hall : ∀ t ∈ st.tasks, t.status = TaskStatus.completed := by
        intro t ht
        have := List.any_eq_false.mp hany' t ht
        simpa using this
      refine ⟨st.tasks, st.results, runLoop_done llm fuel st hany', hinv.skel, ?_,
        hinv.keys, ?_, hinv.vals⟩
      · intro t ht
        exact ⟨hall t ht, hinv.cres t ht (hall t ht)⟩
      · intro i
        rw [hinv.keysIff i]
        constructor
        · rintro ⟨t, ht, htid, _⟩
          rw [← forall₂_sameSkel_map_id hinv.skel]
          exact List.mem_map.mpr ⟨t, ht, htid⟩
        · intro hi
          rw [← forall₂_sameSkel_map_id hinv.skel] at hi
          obtain ⟨t, ht, htid⟩ := List.mem_map.mp hi
          exact ⟨t, ht, htid, hall t ht⟩

/-- C2: For every task set whose dependency relation is a DAG (with all
referenced ids present and ids unique, per the spec's data-model invariants)
and every executor that succeeds on every call, the run terminates
successfully: every task ends COMPLETED with a stored (`some`) result, and the
aggregator is invoked exactly once — the run's value is `agg` applied to the
one complete result mapping, whose keys are exactly the task ids (without
duplicates) and whose values are the stored task results. -/
theorem dag_run_completes (llm : String → Except String String)
    (agg : List (String × String) → String) (tasks : TaskMap)
    (hclosed : ClosedDeps tasks) (hnodup : (tasks.map SubTask.id).Nodup)
    (hdag : IsDagRanked tasks)
    (hinit : ∀ t ∈ tasks, t.status = TaskStatus.pending ∧ t.result = none)
    (hllm : ∀ s, ∃ r, llm s = Except.ok r) :
    ∃ ft results,
      runFromMap llm agg tasks = (ft, Except.ok (agg results)) ∧
      (∀ t ∈ ft, t.status = TaskStatus.completed ∧ t.result.isSome) ∧
      (results.map Prod.fst).Nodup ∧
      (∀ i, i ∈ results.map Prod.fst ↔ i ∈ tasks.map SubTask.id) ∧
      (∀ p ∈ results, ∃ t ∈ ft, t.id = p.1 ∧ t.result = some p.2) := by
  have hinv0 : Inv tasks { tasks := tasks, results := [] } := by
    refine ⟨forall₂_sameSkel_refl tasks, ?_, ?_, ?_, List.nodup_nil, ?_, ?_⟩
    · exact fun t ht => Or.inl (hinit t ht).1
    · exact fun t ht _ => (hinit t ht).2
    · intro t ht hc
      rw [(hinit t ht).1] at hc
      cases hc
    · intro i
      constructor
      · intro h
        simp at h
      · rintro ⟨t, ht, _, hc⟩
        rw [(hinit t ht).1] at hc
        cases hc
    · intro p hp
      simp at hp
  obtain ⟨ft, results, hrun, _, hcomp, hkeys, hkeysIff, hvals⟩ :=
    runLoop_dag_ok tasks llm hclosed hnodup hdag hllm
      (notCompletedCount tasks + 1) { tasks := tasks, results := [] }
      hinv0 (Nat.lt_succ_self _)
  refine ⟨ft, results, ?_, hcomp, hkeys, hkeysIff, hvals⟩
  unfold runFromMap
  rw [hrun]

/-- Witness for `dag_run_completes`: the chain `{A: deps=[]}, {B: deps=[A]}`
with an always-succeeding executor. -/
theorem dag_run_completes_witness :
    ∃ (ft : TaskMap) (results : List (String × String)),
      runFromMap (fun _ => Except.ok "r") (fun _ => "done")
        [{ id := "A", description := "a", dependencies := [] },
         { id := "B", description := "b", dependencies := ["A"] }] =
        (ft, Except.ok "done") ∧
      (∀ t ∈ ft, t.status = TaskStatus.completed ∧ t.result.isSome) ∧
      (results.map Prod.fst).Nodup ∧
      (∀ i, i ∈ results.map Prod.fst ↔
        i ∈ ([{ id := "A", description := "a", dependencies := [] },
              { id := "B", description := "b", dependencies := ["A"] }] : TaskMap).map
              SubTask.id) ∧
      (∀ p ∈ results, ∃ t ∈ ft, t.id = p.1 ∧ t.result = some p.2) := by
  obtain ⟨ft, results, h1, h2, h3, h4, h5⟩ :=
    dag_run_completes (fun _ => Except.ok "r") (fun _ => "done")
      [{ id := "A", description := "a", dependencies := [] },
       { id := "B", description := "b", dependencies := ["A"] }]
      (by
        intro t ht d hd
        rcases List.mem_cons.mp ht with h | h
        · subst h
          cases hd
        · rw [List.mem_singleton] at h
          subst h
          rw [show ({ id := "B", description := "b", dependencies := ["A"] } :
              SubTask).dependencies = ["A"] from rfl] at hd
          rw [List.mem_singleton] at hd
          subst hd
          exact ⟨_, rfl⟩)
      (by decide)
      ⟨fun i => if i = "B" then 1 else 0, by decide⟩
      (by decide)
      (fun s => ⟨"r", rfl⟩)
  exact ⟨ft, results, h1, h2, h3, h4, h5⟩

theorem transGen_head_cases {α : Type} {r : α → α → Prop} {a b : α}
    (h : Relation.TransGen r a b) : r a b ∨ ∃ c, r a c ∧ Relation.TransGen r c b := by
  induction h with
  | single h1 => exact Or.inl h1
  | tail h1 h2 ih =>
    rcases ih with h3 | ⟨c, h4, h5⟩
    · exact Or.inr ⟨_, h3, Relation.TransGen.single h2⟩
    · exact Or.inr ⟨c, h4, h5.tail h2⟩

theorem runLoop_cycle_main (tasks0 : TaskMap) (llm : String → Except String String)
    (hclosed : ClosedDeps tasks0) (hnodup0 : (tasks0.map SubTask.id).Nodup)
    (hllm : ∀ s, ∃ r, llm s = Except.ok r)
    (S : String → Prop)
    (hSdep : ∀ j, S j → ∃ t, findTask tasks0 j = some t ∧ ∃ d ∈ t.dependencies, S d)
    (i0 : String) (hi0 : S i0) :
    ∀ fuel (st : St), Inv tasks0 st →
      (∀ j, S j → ∃ u, findTask st.tasks j = some u ∧ u.status = TaskStatus.pending) →
      notCompletedCount st.tasks < fuel →
      ∃ ft, runLoop llm fuel st = (ft, Except.error RunError.cycleDetected) := by
  intro fuel
  induction fuel with
  | zero =>
    intro st _ _ hlt
    exact absurd hlt (Nat.not_lt_zero _)
  | succ fuel ih =>
    intro st hinv hS hlt
    have hnodupSt : (st.tasks.map SubTask.id).Nodup := by
      rw [forall₂_sameSkel_map_id hinv.skel]
      exact hnodup0
    obtain ⟨uX, huX, huXp⟩ := hS i0 hi0
    have huXmem : uX ∈ st.tasks := (findTask_eq_some huX).1
    have hany : st.tasks.any (fun t => t.status ≠ TaskStatus.completed) = true := by
      rw [List.any_eq_true]
      exact ⟨uX, huXmem, by simp [huXp]⟩
    have hclosedSt : ClosedDeps st.tasks := closedDeps_of_skel hinv.skel hclosed
    have htot : ∀ t ∈ st.tasks, ∃ b, readyCheck st.tasks t = Except.ok b :=
      fun t ht => readyCheck_total (fun d hd => hclosedSt t ht d hd)
    obtain ⟨out, hout⟩ := computeReadyAux_total htot
    have hout' : computeReady st.tasks = Except.ok out := hout
    cases houtc : out with
    | nil =>
      rw [houtc] at hout'
      have hfail : st.tasks.any (fun t => t.status = TaskStatus.failed) = false := by
        rw [List.any_eq_false]
        intro t ht
        rcases hinv.statuses t ht with h | h <;> simp [h]
      have hpend : st.tasks.any (fun t => t.status = TaskStatus.pending) = true := by
        rw [List.any_eq_true]
        exact ⟨uX, huXmem, by simp [huXp]⟩
      exact ⟨st.tasks, runLoop_cycle_eq llm fuel st hany hout' hfail hpend⟩
    | cons r rs =>
      rw [houtc] at hout'
      have hallok : ∀ p ∈ batchOutcomes llm
          (markInProgress st.tasks ((r :: rs).map SubTask.id)) (r :: rs),
          ∃ q, p.2 = Except.ok q := by
        intro p hp
        obtain ⟨v, hv, hpe⟩ := List.mem_map.mp hp
        obtain ⟨q, hq⟩ :=
          hllm (executionPrompt (markInProgress st.tasks ((r :: rs).map SubTask.id)) v)
        rw [← hpe]
        exact ⟨q, hq⟩
      have hff : firstFailure (batchOutcomes llm
          (markInProgress st.tasks ((r :: rs).map SubTask.id)) (r :: rs)) = none :=
        firstFailure_none_iff.mpr hallok
      have hfst : (okPairs (batchOutcomes llm
          (markInProgress st.tasks ((r :: rs).map SubTask.id)) (r :: rs))).map Prod.fst =
          (r :: rs).map SubTask.id := by
        rw [okPairs_map_fst hallok, batchOutcomes_map_fst]
      have heq := runLoop_batch_ok llm fuel st r rs hany hout' hff
      rw [completeBatch_markInProgress st.tasks _ _ hfst] at heq
      have hinv' := inv_step hinv hnodup0 hout' hfst
      have hS' : ∀ j, S j →
          ∃ u, findTask (completeBatch st.tasks
            (okPairs (batchOutcomes llm
              (markInProgress st.tasks ((r :: rs).map SubTask.id)) (r :: rs)))) j = some u ∧
            u.status = TaskStatus.pending := by
        intro j hj
        obtain ⟨u, hu, hup⟩ := hS j hj
        have huid : u.id = j := (findTask_eq_some hu).2
        have hnotready : (okPairs (batchOutcomes llm
            (markInProgress st.tasks ((r :: rs).map SubTask.id)) (r :: rs))).find?
            (fun q => q.1 = u.id) = none := by
          rw [List.find?_eq_none]
          intro p hp
          simp only [decide_eq_true_eq]
          intro hpe
          have hkey : u.id ∈ (r :: rs).map SubTask.id := by
            rw [← hfst]
            exact hpe ▸ List.mem_map.mpr ⟨p, hp, rfl⟩
          obtain ⟨v, hv, hvid⟩ := List.mem_map.mp hkey
          have hvt := (computeReady_ok_mem hout' v).mp hv
          have hveq : v = u :=
            eq_of_mem_nodup_ids hnodupSt hvt.1 (findTask_eq_some hu).1 hvid
          have hready := readyCheck_ok_true_iff.mp hvt.2
          obtain ⟨t0, ht0, d, hd, hSd⟩ := hSdep j hj
          obtain ⟨y, hy, hsky⟩ := forall₂_findTask_some hinv.skel ht0
          have hyu : y = u := by
            rw [hu] at hy
            exact (Option.some.inj hy).symm
          rw [hyu] at hsky
          have hdu : d ∈ u.dependencies := by
            rw [hsky.2.2]
            exact hd
          have hdready := hready.2 d (by rw [hveq]; exact hdu)
          obtain ⟨w, hw, hwc⟩ := hdready
          obtain ⟨w2, hw2, hw2p⟩ := hS d hSd
          rw [hw] at hw2
          cases Option.some.inj hw2
          rw [hwc] at hw2p
          cases hw2p
        rw [completeBatch_findTask, hu]
        refine ⟨u, ?_, hup⟩
        simp only [Option.map_some']
        rw [hnotready]
      have hrmem := (computeReady_ok_mem hout' r).mp (List.mem_cons_self r rs)
      have hrp : r.status = TaskStatus.pending := (readyCheck_ok_true_iff.mp hrmem.2).1
      have hmeas : notCompletedCount (completeBatch st.tasks
          (okPairs (batchOutcomes llm
            (markInProgress st.tasks ((r :: rs).map SubTask.id)) (r :: rs)))) <
          notCompletedCount st.tasks := by
        refine completeBatch_measure_lt hrmem.1 hrp ?_
        rw [hfst]
        exact List.mem_map.mpr ⟨r, List.mem_cons_self r rs, rfl⟩
      have hlt' : notCompletedCount (completeBatch st.tasks
          (okPairs (batchOutcomes llm
            (markInProgress st.tasks ((r :: rs).map SubTask.id)) (r :: rs)))) < fuel := by
        omega
      obtain ⟨ft, hrun⟩ := ih _ hinv' hS' hlt'
      exact ⟨ft, heq.trans hrun⟩

/-- C3: For every well-formed task set (all referenced ids present, ids
unique, all tasks initially PENDING with no result) whose dependency relation
contains a cycle — some id reaches itself through dependency edges, a
self-dependency included — and every executor that succeeds on every call, the
run terminates with the cycle/deadlock error `Exception("Dependency cycle
detected")`.  Termination in finitely many rounds is inherent: the fuel
`notCompletedCount + 1` used by `runFromMap` suffices because every round that
continues completes at least one task, and this theorem shows the run ends in
the cycle error rather than fuel exhaustion. -/
theorem cycle_run_fails (llm : String → Except String String)
    (agg : List (String × String) → String) (tasks : TaskMap)
    (hclosed : ClosedDeps tasks) (hnodup : (tasks.map SubTask.id).Nodup)
    (hinit : ∀ t ∈ tasks, t.status = TaskStatus.pending ∧ t.result = none)
    (hllm : ∀ s, ∃ r, llm s = Except.ok r)
    (hcyc : HasCycle tasks) :
    ∃ ft, runFromMap llm agg tasks = (ft, Except.error RunError.cycleDetected) := by
  obtain ⟨i0, hii⟩ := hcyc
  set e := hasDependencyEdge tasks with he
  have hSdep : ∀ j, (Relation.TransGen e i0 j ∧ Relation.TransGen e j i0) →
      ∃ t, findTask tasks j = some t ∧ ∃ d ∈ t.dependencies,
        Relation.TransGen e i0 d ∧ Relation.TransGen e d i0 := by
    rintro j ⟨h1, h2⟩
    rcases transGen_head_cases h2 with hstep | ⟨c, hjc, hci0⟩
    · obtain ⟨t, ht, hdep⟩ := hstep
      exact ⟨t, ht, i0, hdep, h1.tail ⟨t, ht, hdep⟩, h1.tail ⟨t, ht, hdep⟩⟩
    · obtain ⟨t, ht, hdep⟩ := hjc
      exact ⟨t, ht, c, hdep, h1.tail ⟨t, ht, hdep⟩, hci0⟩
  have hinv0 : Inv tasks { tasks := tasks, results := [] } := by
    refine ⟨forall₂_sameSkel_refl tasks, ?_, ?_, ?_, List.nodup_nil, ?_, ?_⟩
    · exact fun t ht => Or.inl (hinit t ht).1
    · exact fun t ht _ => (hinit t ht).2
    · intro t ht hc
      rw [(hinit t ht).1] at hc
      cases hc
    · intro i
      constructor
      · intro h
        simp at h
      · rintro ⟨t, ht, _, hc⟩
        rw [(hinit t ht).1] at hc
        cases hc
    · intro p hp
      simp at hp
  have hS0 : ∀ j, (Relation.TransGen e i0 j ∧ Relation.TransGen e j i0) →
      ∃ u, findTask tasks j = some u ∧ u.status = TaskStatus.pending := by
    intro j hj
    obtain ⟨t, ht, _⟩ := hSdep j hj
    exact ⟨t, ht, (hinit t (findTask_eq_some ht).1).1⟩
  obtain ⟨ft, hrun⟩ := runLoop_cycle_main tasks llm hclosed hnodup hllm
    (fun j => Relation.TransGen e i0 j ∧ Relation.TransGen e j i0) hSdep
    i0 ⟨hii, hii⟩ (notCompletedCount tasks + 1) { tasks := tasks, results := [] }
    hinv0 hS0 (Nat.lt_succ_self _)
  refine ⟨ft, ?_⟩
  unfold runFromMap
  rw [hrun]

/-- Witness for `cycle_run_fails`: the single self-dependent task
`{A: deps=[A]}`. -/
theorem cycle_run_fails_witness :
    ∃ ft, runFromMap (fun _ => Except.ok "r") (fun _ => "done")
      [{ id := "A", description := "a", dependencies := ["A"] }] =
      (ft, Except.error RunError.cycleDetected) :=
  cycle_run_fails (fun _ => Except.ok "r") (fun _ => "done")
    [{ id := "A", description := "a", dependencies := ["A"] }]
    (by
      intro t ht d hd
      rw [List.mem_singleton] at ht
      subst ht
      rw [show ({ id := "A", description := "a", dependencies := ["A"] } :
          SubTask).dependencies = ["A"] from rfl] at hd
      rw [List.mem_singleton] at hd
      subst hd
      exact ⟨_, rfl⟩)
    (by decide)
    (by decide)
    (fun s => ⟨"r", rfl⟩)
    ⟨"A", Relation.TransGen.single
      ⟨{ id := "A", description := "a", dependencies := ["A"] }, rfl, by decide⟩⟩

theorem executionPrompt_congr (m : TaskMap) {a b : SubTask}
    (hdesc : b.description = a.description)
    (hdeps : b.dependencies = a.dependencies) :
    executionPrompt m b = executionPrompt m a := by
  unfold executionPrompt get_dependency_results dependencyEntries
  rw [hdesc, hdeps]

theorem firstFailure_unique_error {outcomes : List (String × Except String String)}
    {i m : String}
    (hmem : (i, Except.error m) ∈ outcomes)
    (hothers : ∀ p ∈ outcomes, p.1 ≠ i → ∃ r, p.2 = Except.ok r)
    (honlyi : ∀ p ∈ outcomes, p.1 = i → p.2 = Except.error m) :
    firstFailure outcomes = some (i, m) := by
  induction outcomes with
  | nil => cases hmem
  | cons p rest ih =>
    by_cases hp : p.1 = i
    · have := honlyi p (List.mem_cons_self _ _) hp
      cases p with
      | mk j o =>
        simp only at this hp
        subst this
        subst hp
        rfl
    · obtain ⟨r, hr⟩ := hothers p (List.mem_cons_self _ _) hp
      cases p with
      | mk j o =>
        simp only at hr
        subst hr
        show firstFailure rest = some (i, m)
        have hmem' : (i, Except.error m) ∈ rest := by
          rcases List.mem_cons.mp hmem with h | h
          · exfalso
            apply hp
            have := congrArg Prod.fst h
            exact this.symm
          · exact h
        exact ih hmem' (fun q hq => hothers q (List.mem_cons_of_mem _ hq))
          (fun q hq => honlyi q (List.mem_cons_of_mem _ hq))

theorem failedIds_subset {outcomes : List (String × Except String String)} {i : String}
    (h : i ∈ failedIds outcomes) : i ∈ outcomes.map Prod.fst := by
  unfold failedIds at h
  obtain ⟨p, hp, hpe⟩ := List.mem_map.mp h
  exact List.mem_map.mpr ⟨p, (List.mem_filter.mp hp).1, hpe⟩

theorem mem_failedIds {outcomes : List (String × Except String String)}
    {i m : String} (h : (i, Except.error m) ∈ outcomes) : i ∈ failedIds outcomes := by
  unfold failedIds
  refine List.mem_map.mpr ⟨(i, Except.error m), ?_, rfl⟩
  exact List.mem_filter.mpr ⟨h, rfl⟩

theorem transGen_rank_lt {tasks : TaskMap} {rank : String → Nat}
    (hrank : ∀ t ∈ tasks, ∀ d ∈ t.dependencies, rank d < rank t.id)
    {i j : String} (h : Relation.TransGen (hasDependencyEdge tasks) i j) :
    rank j < rank i := by
  induction h with
  | single h1 =>
    obtain ⟨t, ht, hd⟩ := h1
    have h2 := hrank t (findTask_eq_some ht).1 _ hd
    rw [(findTask_eq_some ht).2] at h2
    exact h2
  | tail h1 h2 ih =>
    obtain ⟨t, ht, hd⟩ := h2
    have h3 := hrank t (findTask_eq_some ht).1 _ hd
    rw [(findTask_eq_some ht).2] at h3
    omega

theorem runLoop_fail_on_X (tasks0 : TaskMap) (llm : String → Except String String)
    (X : SubTask) (msg : String)
    (hclosed : ClosedDeps tasks0) (hnodup0 : (tasks0.map SubTask.id).Nodup)
    (rank : String → Nat)
    (hrank : ∀ t ∈ tasks0, ∀ d ∈ t.dependencies, rank d < rank t.id)
    (hX : X ∈ tasks0)
    (hfail : ∀ m : TaskMap, llm (executionPrompt m X) = Except.error msg)
    (hok : ∀ t ∈ tasks0, t.id ≠ X.id →
      ∀ m : TaskMap, ∃ r, llm (executionPrompt m t) = Except.ok r) :
    ∀ fuel (st : St), Inv tasks0 st →
      (∃ u, findTask st.tasks X.id = some u ∧ u.status = TaskStatus.pending) →
      (∀ j, Relation.TransGen (hasDependencyEdge tasks0) j X.id →
        ∃ u, findTask st.tasks j = some u ∧ u.status = TaskStatus.pending) →
      notCompletedCount st.tasks < fuel →
      ∃ ft, runLoop llm fuel st = (ft, Except.error (RunError.taskFailed X.id msg)) ∧
        (∃ u, findTask ft X.id = some u ∧ u.status = TaskStatus.failed ∧
          u.result = none) ∧
        (∀ j, Relation.TransGen (hasDependencyEdge tasks0) j X.id →
          ∃ u, findTask ft j = some u ∧ u.status = TaskStatus.pending) := by
  intro fuel
  induction fuel with
  | zero =>
    intro st _ _ _ hlt
    exact absurd hlt (Nat.not_lt_zero _)
  | succ fuel ih =>
    intro st hinv hXcur hdeps hlt
    obtain ⟨tX, htX, htXp⟩ := hXcur
    have htXmem : tX ∈ st.tasks := (findTask_eq_some htX).1
    have htXid : tX.id = X.id := (findTask_eq_some htX).2
    have hnodupSt : (st.tasks.map SubTask.id).Nodup := by
      rw [forall₂_sameSkel_map_id hinv.skel]
      exact hnodup0
    have hany : st.tasks.any (fun t => t.status ≠ TaskStatus.completed) = true := by
      rw [List.any_eq_true]
      exact ⟨tX, htXmem, by simp [htXp]⟩
    have hclosedSt : ClosedDeps st.tasks := closedDeps_of_skel hinv.skel hclosed
    have hdagSt : IsDagRanked st.tasks := isDagRanked_of_skel hinv.skel ⟨rank, hrank⟩
    have htot : ∀ t ∈ st.tasks, ∃ b, readyCheck st.tasks t = Except.ok b :=
      fun t ht => readyCheck_total (fun d hd => hclosedSt t ht d hd)
    obtain ⟨out, hout⟩ := computeReadyAux_total htot
    have hout' : computeReady st.tasks = Except.ok out := hout
    obtain ⟨tr, htr, htrr⟩ :=
      ready_nonempty_of_dag hclosedSt hdagSt hinv.statuses ⟨tX, htXmem, htXp⟩
    have htr_mem : tr ∈ out := (computeReady_ok_mem hout' tr).mpr ⟨htr, htrr⟩
    cases houtc : out with
    | nil =>
      rw [houtc] at htr_mem
      cases htr_mem
    | cons r rs =>
      rw [houtc] at hout'
      have hX0find : findTask tasks0 X.id = some X := findTask_of_mem_nodup hnodup0 hX
      obtain ⟨y, hy, hskXy⟩ := forall₂_findTask_some hinv.skel hX0find
      have hytX : y = tX := by
        rw [htX] at hy
        exact (Option.some.inj hy).symm
      rw [hytX] at hskXy
      have hdep_pending : ∀ j u, Relation.TransGen (hasDependencyEdge tasks0) j X.id →
          findTask st.tasks j = some u →
          ∃ d ∈ u.dependencies, ∃ w, findTask st.tasks d = some w ∧
            w.status = TaskStatus.pending := by
        intro j u hj hu
        rcases transGen_head_cases hj with hstep | ⟨c, hjc, hcX⟩
        · obtain ⟨t0, ht0, hdep0⟩ := hstep
          obtain ⟨y2, hy2, hsk2⟩ := forall₂_findTask_some hinv.skel ht0
          have hy2u : y2 = u := by
            rw [hu] at hy2
            exact (Option.some.inj hy2).symm
          rw [hy2u] at hsk2
          refine ⟨X.id, ?_, tX, htX, htXp⟩
          rw [hsk2.2.2]
          exact hdep0
        · obtain ⟨t0, ht0, hdep0⟩ := hjc
          obtain ⟨y2, hy2, hsk2⟩ := forall₂_findTask_some hinv.skel ht0
          have hy2u : y2 = u := by
            rw [hu] at hy2
            exact (Option.some.inj hy2).symm
          rw [hy2u] at hsk2
          obtain ⟨w, hw, hwp⟩ := hdeps c hcX
          refine ⟨c, ?_, w, hw, hwp⟩
          rw [hsk2.2.2]
          exact hdep0
      have hdep_not_ready : ∀ j, Relation.TransGen (hasDependencyEdge tasks0) j X.id →
          ∀ u, findTask st.tasks j = some u → u ∉ (r :: rs) := by
        intro j hj u hu hmem2
        have hready := readyCheck_ok_true_iff.mp ((computeReady_ok_mem hout' u).mp hmem2).2
        obtain ⟨d, hd, w, hw, hwp⟩ := hdep_pending j u hj hu
        obtain ⟨w2, hw2, hw2c⟩ := hready.2 d hd
        rw [hw] at hw2
        have hww : w = w2 := Option.some.inj hw2
        rw [← hww] at hw2c
        rw [hwp] at hw2c
        cases hw2c
      have hdep_not_in_ready_ids : ∀ j, Relation.TransGen (hasDependencyEdge tasks0) j X.id →
          ∀ u, findTask st.tasks j = some u → u.id ∉ (r :: rs).map SubTask.id := by
        intro j hj u hu hmem2
        obtain ⟨v, hv, hvid⟩ := List.mem_map.mp hmem2
        have hveq : v = u := eq_of_mem_nodup_ids hnodupSt
          ((computeReady_ok_mem hout' v).mp hv).1 (findTask_eq_some hu).1 hvid
        exact hdep_not_ready j hj u hu (hveq ▸ hv)
      by_cases hXready : tX ∈ r :: rs
      · -- the round that dispatches X: its outcome is the sole failure
        have houtX : llm (executionPrompt
            (markInProgress st.tasks ((r :: rs).map SubTask.id)) tX) = Except.error msg := by
          rw [executionPrompt_congr _ hskXy.2.1 hskXy.2.2]
          exact hfail _
        have hmemo : (tX.id, Except.error msg) ∈ batchOutcomes llm
            (markInProgress st.tasks ((r :: rs).map SubTask.id)) (r :: rs) := by
          unfold batchOutcomes
          refine List.mem_map.mpr ⟨tX, hXready, ?_⟩
          rw [houtX]
        have hothers : ∀ p ∈ batchOutcomes llm
            (markInProgress st.tasks ((r :: rs).map SubTask.id)) (r :: rs),
            p.1 ≠ tX.id → ∃ q, p.2 = Except.ok q := by
          intro p hp hpne
          obtain ⟨v, hv, hpe⟩ := List.mem_map.mp hp
          obtain ⟨t0, ht0, hsk0⟩ :=
            forall₂_mem_right hinv.skel ((computeReady_ok_mem hout' v).mp hv).1
          have ht0ne : t0.id ≠ X.id := by
            rw [← hsk0.1]
            intro he
            apply hpne
            rw [← hpe]
            show v.id = tX.id
            rw [he, htXid]
          obtain ⟨q, hq⟩ := hok t0 ht0 ht0ne
            (markInProgress st.tasks ((r :: rs).map SubTask.id))
          rw [← hpe]
          refine ⟨q, ?_⟩
          show llm (executionPrompt
            (markInProgress st.tasks ((r :: rs).map SubTask.id)) v) = Except.ok q
          rw [executionPrompt_congr _ hsk0.2.1 hsk0.2.2]
          exact hq
        have honlyi : ∀ p ∈ batchOutcomes llm
            (markInProgress st.tasks ((r :: rs).map SubTask.id)) (r :: rs),
            p.1 = tX.id → p.2 = Except.error msg := by
          intro p hp hpe2
          obtain ⟨v, hv, hpe⟩ := List.mem_map.mp hp
          have hvid : v.id = tX.id := by
            rw [← hpe] at hpe2
            exact hpe2
          have hveq : v = tX := eq_of_mem_nodup_ids hnodupSt
            ((computeReady_ok_mem hout' v).mp hv).1 htXmem hvid
          rw [← hpe]
          show llm (executionPrompt
            (markInProgress st.tasks ((r :: rs).map SubTask.id)) v) = Except.error msg
          rw [hveq]
          exact houtX
        have hffX := firstFailure_unique_error hmemo hothers honlyi
        have heq := runLoop_batch_fail llm fuel st r rs tX.id msg hany hout' hffX
        rw [htXid] at heq
        refine ⟨_, heq, ?_, ?_⟩
        · -- X is FAILED with no stored result
          have hXin : tX.id ∈ (r :: rs).map SubTask.id :=
            List.mem_map.mpr ⟨tX, hXready, rfl⟩
          have hXfail : tX.id ∈ failedIds (batchOutcomes llm
              (markInProgress st.tasks ((r :: rs).map SubTask.id)) (r :: rs)) :=
            mem_failedIds hmemo
          refine ⟨{ tX with status := TaskStatus.failed }, ?_, rfl, hinv.pres tX htXmem htXp⟩
          rw [markFailed_findTask, markInProgress_findTask, htX]
          simp only [Option.map_some']
          rw [if_pos hXin]
          rw [if_pos (show ({ tX with status := TaskStatus.in_progress } : SubTask).id ∈
            failedIds (batchOutcomes llm
              (markInProgress st.tasks ((r :: rs).map SubTask.id)) (r :: rs)) from hXfail)]
        · -- transitive dependents of X stay PENDING
          intro j hj
          obtain ⟨u, hu, hup⟩ := hdeps j hj
          have hnotready := hdep_not_in_ready_ids j hj u hu
          have hnotfail : u.id ∉ failedIds (batchOutcomes llm
              (markInProgress st.tasks ((r :: rs).map SubTask.id)) (r :: rs)) := by
            intro hmem3
            have h4 := failedIds_subset hmem3
            rw [batchOutcomes_map_fst] at h4
            exact hnotready h4
          refine ⟨u, ?_, hup⟩
          rw [markFailed_findTask, markInProgress_findTask, hu]
          simp only [Option.map_some']
          rw [if_neg hnotready, if_neg hnotfail]
      · -- X is not in this batch: the whole batch succeeds, recurse
        have hallok : ∀ p ∈ batchOutcomes llm
            (markInProgress st.tasks ((r :: rs).map SubTask.id)) (r :: rs),
            ∃ q, p.2 = Except.ok q := by
          intro p hp
          obtain ⟨v, hv, hpe⟩ := List.mem_map.mp hp
          have hvmem : v ∈ st.tasks := ((computeReady_ok_mem hout' v).mp hv).1
          have hvne : v.id ≠ X.id := by
            intro he
            have hveq : v = tX :=
              eq_of_mem_nodup_ids hnodupSt hvmem htXmem (he.trans htXid.symm)
            exact hXready (hveq ▸ hv)
          obtain ⟨t0, ht0, hsk0⟩ := forall₂_mem_right hinv.skel hvmem
          have ht0ne : t0.id ≠ X.id := by
            rw [← hsk0.1]
            exact hvne
          obtain ⟨q, hq⟩ := hok t0 ht0 ht0ne
            (markInProgress st.tasks ((r :: rs).map SubTask.id))
          rw [← hpe]
          refine ⟨q, ?_⟩
          show llm (executionPrompt
            (markInProgress st.tasks ((r :: rs).map SubTask.id)) v) = Except.ok q
          rw [executionPrompt_congr _ hsk0.2.1 hsk0.2.2]
          exact hq
        have hff : firstFailure (batchOutcomes llm
            (markInProgress st.tasks ((r :: rs).map SubTask.id)) (r :: rs)) = none :=
          firstFailure_none_iff.mpr hallok
        have hfst : (okPairs (batchOutcomes llm
            (markInProgress st.tasks ((r :: rs).map SubTask.id)) (r :: rs))).map Prod.fst =
            (r :: rs).map SubTask.id := by
          rw [okPairs_map_fst hallok, batchOutcomes_map_fst]
        have heq := runLoop_batch_ok llm fuel st r rs hany hout' hff
        rw [completeBatch_markInProgress st.tasks _ _ hfst] at heq
        have hinv' := inv_step hinv hnodup0 hout' hfst
        have hnotinready : ∀ j u, findTask st.tasks j = some u → u ∉ (r :: rs) →
            (okPairs (batchOutcomes llm
              (markInProgress st.tasks ((r :: rs).map SubTask.id)) (r :: rs))).find?
              (fun q => q.1 = u.id) = none := by
          intro j u hu hnr
          rw [List.find?_eq_none]
          intro p hp
          simp only [decide_eq_true_eq]
          intro he
          have hkey : u.id ∈ (r :: rs).map SubTask.id := by
            rw [← hfst]
            exact he ▸ List.mem_map.mpr ⟨p, hp, rfl⟩
          obtain ⟨v, hv, hvid⟩ := List.mem_map.mp hkey
          have hveq : v = u := eq_of_mem_nodup_ids hnodupSt
            ((computeReady_ok_mem hout' v).mp hv).1 (findTask_eq_some hu).1 hvid
          exact hnr (hveq ▸ hv)
        have hXcur' : ∃ u, findTask (completeBatch st.tasks
            (okPairs (batchOutcomes llm
              (markInProgress st.tasks ((r :: rs).map SubTask.id)) (r :: rs)))) X.id =
            some u ∧ u.status = TaskStatus.pending := by
          rw [completeBatch_findTask, htX]
          simp only [Option.map_some']
          rw [hnotinready X.id tX htX hXready]
          exact ⟨tX, rfl, htXp⟩
        have hdeps' : ∀ j, Relation.TransGen (hasDependencyEdge tasks0) j X.id →
            ∃ u, findTask (completeBatch st.tasks
              (okPairs (batchOutcomes llm
                (markInProgress st.tasks ((r :: rs).map SubTask.id)) (r :: rs)))) j =
              some u ∧ u.status = TaskStatus.pending := by
          intro j hj
          obtain ⟨u, hu, hup⟩ := hdeps j hj
          rw [completeBatch_findTask, hu]
          simp only [Option.map_some']
          rw [hnotinready j u hu (hdep_not_ready j hj u hu)]
          exact ⟨u, rfl, hup⟩
        have hrmem := (computeReady_ok_mem hout' r).mp (List.mem_cons_self r rs)
        have hrp : r.status = TaskStatus.pending := (readyCheck_ok_true_iff.mp hrmem.2).1
        have hmeas : notCompletedCount (completeBatch st.tasks
            (okPairs (batchOutcomes llm
              (markInProgress st.tasks ((r :: rs).map SubTask.id)) (r :: rs)))) <
            notCompletedCount st.tasks := by
          refine completeBatch_measure_lt hrmem.1 hrp ?_
          rw [hfst]
          exact List.mem_map.mpr ⟨r, List.mem_cons_self r rs, rfl⟩
        have hlt' : notCompletedCount (completeBatch st.tasks
            (okPairs (batchOutcomes llm
              (markInProgress st.tasks ((r :: rs).map SubTask.id)) (r :: rs)))) < fuel := by
          omega
        obtain ⟨ft, hrun, hXfin, hdepfin⟩ := ih _ hinv' hXcur' hdeps' hlt'
        exact ⟨ft, heq.trans hrun, hXfin, hdepfin⟩

theorem inv_init (tasks : TaskMap)
    (hinit : ∀ t ∈ tasks, t.status = TaskStatus.pending ∧ t.result = none) :
    Inv tasks { tasks := tasks, results := [] } := by
  refine ⟨forall₂_sameSkel_refl tasks, ?_, ?_, ?_, List.nodup_nil, ?_, ?_⟩
  · exact fun t ht => Or.inl (hinit t ht).1
  · exact fun t ht _ => (hinit t ht).2
  · intro t ht hc
    rw [(hinit t ht).1] at hc
    cases hc
  · intro i
    constructor
    · intro h
      simp at h
    · rintro ⟨t, ht, _, hc⟩
      rw [(hinit t ht).1] at hc
      cases hc
  · intro p hp
    simp at hp

/-- C4: For a well-formed DAG task set all of whose tasks start PENDING, if
the executor fails on task X (its `llm.call` raises on X's execution prompt,
however X's dependency results resolve) and succeeds on every other task, the
run terminates with `Exception("Failed to execute task X: msg")` identifying
X; in the final task map X is FAILED with no stored result and every task
depending directly or transitively on X is still PENDING; and the aggregator
is never invoked — the run's outcome is the error, not an `agg` application. -/
theorem executor_failure_aborts (llm : String → Except String String)
    (agg : List (String × String) → String) (tasks : TaskMap) (X : SubTask) (msg : String)
    (hclosed : ClosedDeps tasks) (hnodup : (tasks.map SubTask.id).Nodup)
    (hdag : IsDagRanked tasks)
    (hinit : ∀ t ∈ tasks, t.status = TaskStatus.pending ∧ t.result = none)
    (hX : X ∈ tasks)
    (hfail : ∀ m : TaskMap, llm (executionPrompt m X) = Except.error msg)
    (hok : ∀ t ∈ tasks, t.id ≠ X.id →
      ∀ m : TaskMap, ∃ r, llm (executionPrompt m t) = Except.ok r) :
    ∃ ft, runFromMap llm agg tasks = (ft, Except.error (RunError.taskFailed X.id msg)) ∧
      (∃ u, findTask ft X.id = some u ∧ u.status = TaskStatus.failed ∧ u.result = none) ∧
      (∀ j, Relation.TransGen (hasDependencyEdge tasks) j X.id →
        ∃ u, findTask ft j = some u ∧ u.status = TaskStatus.pending) := by
  obtain ⟨rank, hrank⟩ := hdag
  have hXcur0 : ∃ u, findTask tasks X.id = some u ∧ u.status = TaskStatus.pending :=
    ⟨X, findTask_of_mem_nodup hnodup hX, (hinit X hX).1⟩
  have hdeps0 : ∀ j, Relation.TransGen (hasDependencyEdge tasks) j X.id →
      ∃ u, findTask tasks j = some u ∧ u.status = TaskStatus.pending := by
    intro j hj
    rcases transGen_head_cases hj with hstep | ⟨c, hjc, _⟩
    · obtain ⟨t, ht, _⟩ := hstep
      exact ⟨t, ht, (hinit t (findTask_eq_some ht).1).1⟩
    · obtain ⟨t, ht, _⟩ := hjc
      exact ⟨t, ht, (hinit t (findTask_eq_some ht).1).1⟩
  obtain ⟨ft, hrun, hXfin, hdepfin⟩ :=
    runLoop_fail_on_X tasks llm X msg hclosed hnodup rank hrank hX hfail hok
      (notCompletedCount tasks + 1) { tasks := tasks, results := [] }
      (inv_init tasks hinit) hXcur0 hdeps0 (Nat.lt_succ_self _)
  refine ⟨ft, ?_, hXfin, hdepfin⟩
  unfold runFromMap
  rw [hrun]

/-- Witness for `executor_failure_aborts`: `{A: deps=[]}, {B: deps=[A]}` with
an executor that raises exactly on A's (dependency-free, hence constant)
prompt and succeeds on any other prompt — B's prompt always differs from A's
because the embedded descriptions give it a strictly greater length. -/
theorem executor_failure_aborts_witness :
    ∃ ft,
      runFromMap
        (fun s => if s = executionPrompt []
            { id := "A", description := "a", dependencies := [] }
          then Except.error "boom" else Except.ok "r")
        (fun _ => "done")
        [{ id := "A", description := "a", dependencies := [] },
         { id := "B", description := "bb", dependencies := ["A"] }] =
        (ft, Except.error (RunError.taskFailed "A" "boom")) ∧
      (∃ u, findTask ft "A" = some u ∧ u.status = TaskStatus.failed ∧
        u.result = none) ∧
      (∀ j, Relation.TransGen
          (hasDependencyEdge
            [{ id := "A", description := "a", dependencies := [] },
             { id := "B", description := "bb", dependencies := ["A"] }]) j "A" →
        ∃ u, findTask ft j = some u ∧ u.status = TaskStatus.pending) := by
  have hlen : ∀ m : TaskMap,
      (executionPrompt m { id := "B", description := "bb", dependencies := ["A"] }).length ≠
      (executionPrompt [] ({ id := "A", description := "a", dependencies := [] } :
        SubTask)).length := by
    intro m
    have h3 : (get_dependency_results []
        ({ id := "A", description := "a", dependencies := [] } : SubTask)).length = 0 := rfl
    simp only [executionPrompt, String.length_append]
    rw [h3]
    have h1 : ("bb" : String).length = 2 := rfl
    have h2 : ("a" : String).length = 1 := rfl
    rw [h1, h2]
    omega
  exact executor_failure_aborts _ _ _
    { id := "A", description := "a", dependencies := [] } "boom"
    (by
      intro t ht d hd
      rcases List.mem_cons.mp ht with h | h
      · subst h
        cases hd
      · rw [List.mem_singleton] at h
        subst h
        rw [show ({ id := "B", description := "bb", dependencies := ["A"] } :
            SubTask).dependencies = ["A"] from rfl] at hd
        rw [List.mem_singleton] at hd
        subst hd
        exact ⟨_, rfl⟩)
    (by decide)
    ⟨fun i => if i = "B" then 1 else 0, by decide⟩
    (by decide)
    (List.mem_cons_self _ _)
    (by
      intro m
      show (if executionPrompt m { id := "A", description := "a", dependencies := [] } =
          executionPrompt [] { id := "A", description := "a", dependencies := [] }
        then Except.error "boom" else Except.ok "r") = Except.error "boom"
      rw [if_pos (show executionPrompt m
          { id := "A", description := "a", dependencies := [] } =
        executionPrompt [] { id := "A", description := "a", dependencies := [] } from rfl)])
    (by
      intro t ht hne m
      rcases List.mem_cons.mp ht with h | h
      · subst h
        exact absurd rfl hne
      · rw [List.mem_singleton] at h
        subst h
        refine ⟨"r", ?_⟩
        show (if executionPrompt m { id := "B", description := "bb", dependencies := ["A"] } =
            executionPrompt [] { id := "A", description := "a", dependencies := [] }
          then Except.error "boom" else Except.ok "r") = Except.ok "r"
        rw [if_neg (fun he => hlen m (congrArg String.length he))])

theorem runLoop_keyError_eq (llm : String → Except String String) (fuel : Nat) (st : St)
    (d : String)
    (hany : st.tasks.any (fun t => t.status ≠ TaskStatus.completed) = true)
    (hcr : computeReady st.tasks = Except.error d) :
    runLoop llm (fuel + 1) st = (st.tasks, Except.error (RunError.keyError d)) := by
  rw [runLoop, if_pos hany, hcr]

theorem runLoop_failed_eq (llm : String → Except String String) (fuel : Nat) (st : St)
    (hany : st.tasks.any (fun t => t.status ≠ TaskStatus.completed) = true)
    (hcr : computeReady st.tasks = Except.ok [])
    (hfail : st.tasks.any (fun t => t.status = TaskStatus.failed) = true) :
    runLoop llm (fuel + 1) st = (st.tasks, Except.error RunError.executionFailed) := by
  rw [runLoop, if_pos hany, hcr]
  simp only [hfail]
  rfl

theorem runLoop_break_eq (llm : String → Except String String) (fuel : Nat) (st : St)
    (hany : st.tasks.any (fun t => t.status ≠ TaskStatus.completed) = true)
    (hcr : computeReady st.tasks = Except.ok [])
    (hfail : st.tasks.any (fun t => t.status = TaskStatus.failed) = false)
    (hpend : st.tasks.any (fun t => t.status = TaskStatus.pending) = false) :
    runLoop llm (fuel + 1) st = (st.tasks, Except.ok st.results) := by
  rw [runLoop, if_pos hany, hcr]
  simp only [hfail, hpend]
  rfl

/-- Reachability in the status graph whose edges are the three legal
transitions PENDING → IN_PROGRESS, IN_PROGRESS → COMPLETED and
IN_PROGRESS → FAILED (reflexive-transitively closed). -/
def statusReach : TaskStatus → TaskStatus → Bool
  | TaskStatus.pending, _ => true
  | TaskStatus.in_progress, TaskStatus.pending => false
  | TaskStatus.in_progress, _ => true
  | TaskStatus.completed, TaskStatus.completed => true
  | TaskStatus.completed, _ => false
  | TaskStatus.failed, TaskStatus.failed => true
  | TaskStatus.failed, _ => false

/-- How one task slot may evolve across scheduler steps: the immutable fields
are fixed, the status moves only along legal transition paths, a COMPLETED or
FAILED task is frozen entirely, and the `result` field changes only by being
written (to `some`) at the step where the status becomes COMPLETED. -/
def stepOk (a b : SubTask) : Prop :=
  b.id = a.id ∧ b.description = a.description ∧ b.dependencies = a.dependencies ∧
  statusReach a.status b.status = true ∧
  (a.status = TaskStatus.completed → b = a) ∧
  (a.status = TaskStatus.failed → b = a) ∧
  (b.result ≠ a.result →
    b.status = TaskStatus.completed ∧ a.status ≠ TaskStatus.completed ∧ b.result.isSome)

theorem statusReach_refl (a : TaskStatus) : statusReach a a = true := by
  cases a <;> rfl

theorem stepOk_refl (a : SubTask) : stepOk a a :=
  ⟨rfl, rfl, rfl, statusReach_refl a.status, fun _ => rfl, fun _ => rfl,
    fun h => absurd rfl h⟩

theorem statusReach_trans (a b c : TaskStatus)
    (h1 : statusReach a b = true) (h2 : statusReach b c = true) :
    statusReach a c = true := by
  cases a <;> cases b <;> cases c <;> simp_all [statusReach]

theorem stepOk_trans {a b c : SubTask} (h1 : stepOk a b) (h2 : stepOk b c) :
    stepOk a c := by
  obtain ⟨hid1, hd1, hdep1, hr1, hc1, hf1, hres1⟩ := h1
  obtain ⟨hid2, hd2, hdep2, hr2, hc2, hf2, hres2⟩ := h2
  refine ⟨hid2.trans hid1, hd2.trans hd1, hdep2.trans hdep1,
    statusReach_trans _ _ _ hr1 hr2, ?_, ?_, ?_⟩
  · intro hca
    have hb := hc1 hca
    have hbs : b.status = TaskStatus.completed := by
      rw [hb]
      exact hca
    rw [hc2 hbs, hb]
  · intro hfa
    have hb := hf1 hfa
    have hbs : b.status = TaskStatus.failed := by
      rw [hb]
      exact hfa
    rw [hf2 hbs, hb]
  · intro hne
    by_cases hab : b.result = a.result
    · have hnebc : c.result ≠ b.result := by
        rw [hab]
        exact hne
      obtain ⟨hcc, hbnc, hcs⟩ := hres2 hnebc
      refine ⟨hcc, ?_, hcs⟩
      intro hca
      apply hbnc
      rw [hc1 hca]
      exact hca
    · obtain ⟨hcb2, hanc, hbs⟩ := hres1 hab
      have hcb := hc2 hcb2
      rw [hcb]
      exact ⟨hcb2, hanc, hbs⟩

theorem forall₂_stepOk_refl (l : TaskMap) : List.Forall₂ stepOk l l := by
  induction l with
  | nil => exact List.Forall₂.nil
  | cons a rest ih => exact List.Forall₂.cons (stepOk_refl a) ih

theorem forall₂_stepOk_trans {a b c : TaskMap}
    (h1 : List.Forall₂ stepOk a b) (h2 : List.Forall₂ stepOk b c) :
    List.Forall₂ stepOk a c := by
  induction h1 generalizing c with
  | nil =>
    cases h2
    exact List.Forall₂.nil
  | cons hab h1' ih =>
    cases h2 with
    | cons hbc h2' => exact List.Forall₂.cons (stepOk_trans hab hbc) (ih h2')

theorem forall₂_stepOk_map {m : TaskMap} {f : SubTask → SubTask}
    (hf : ∀ t ∈ m, stepOk t (f t)) : List.Forall₂ stepOk m (m.map f) := by
  induction m with
  | nil => exact List.Forall₂.nil
  | cons a rest ih =>
    exact List.Forall₂.cons (hf a (List.mem_cons_self a rest))
      (ih (fun t ht => hf t (List.mem_cons_of_mem a ht)))

theorem ready_ids_pending {tasks : TaskMap} {out : List SubTask}
    (hn : (tasks.map SubTask.id).Nodup)
    (hcr : computeReady tasks = Except.ok out) {t : SubTask} (ht : t ∈ tasks)
    (hid : t.id ∈ out.map SubTask.id) : t.status = TaskStatus.pending := by
  obtain ⟨v, hv, hvid⟩ := List.mem_map.mp hid
  have hvmem := (computeReady_ok_mem hcr v).mp hv
  have hveq : v = t := eq_of_mem_nodup_ids hn hvmem.1 ht hvid
  rw [← hveq]
  exact (readyCheck_ok_true_iff.mp hvmem.2).1

theorem forall₂_stepOk_markInProgress {tasks : TaskMap} {out : List SubTask}
    (hn : (tasks.map SubTask.id).Nodup)
    (hcr : computeReady tasks = Except.ok out) :
    List.Forall₂ stepOk tasks (markInProgress tasks (out.map SubTask.id)) := by
  unfold markInProgress
  apply forall₂_stepOk_map
  intro t ht
  by_cases hmem : t.id ∈ out.map SubTask.id
  · have hp := ready_ids_pending hn hcr ht hmem
    simp only [if_pos hmem]
    refine ⟨rfl, rfl, rfl, by rw [hp]; rfl, ?_, ?_, fun hne => absurd rfl hne⟩
    · intro hc
      rw [hp] at hc
      cases hc
    · intro hf
      rw [hp] at hf
      cases hf
  · simp only [if_neg hmem]
    exact stepOk_refl t

theorem marked_in_ids_in_progress {tasks : TaskMap} {ids : List String} {t' : SubTask}
    (ht' : t' ∈ markInProgress tasks ids) (hid : t'.id ∈ ids) :
    t'.status = TaskStatus.in_progress := by
  unfold markInProgress at ht'
  obtain ⟨t, ht, heq⟩ := List.mem_map.mp ht'
  by_cases hmem : t.id ∈ ids
  · rw [← heq]
    simp only [if_pos hmem]
  · rw [← heq] at hid
    simp only [if_neg hmem] at hid
    exact absurd hid hmem

theorem forall₂_stepOk_markFailed {m : TaskMap} {ids : List String}
    (h : ∀ t ∈ m, t.id ∈ ids → t.status = TaskStatus.in_progress) :
    List.Forall₂ stepOk m (markFailed m ids) := by
  unfold markFailed
  apply forall₂_stepOk_map
  intro t ht
  by_cases hmem : t.id ∈ ids
  · have hp := h t ht hmem
    simp only [if_pos hmem]
    refine ⟨rfl, rfl, rfl, by rw [hp]; rfl, ?_, ?_, fun hne => absurd rfl hne⟩
    · intro hc
      rw [hp] at hc
      cases hc
    · intro hf
      rw [hp] at hf
      cases hf
  · simp only [if_neg hmem]
    exact stepOk_refl t

theorem forall₂_stepOk_completeBatch {m : TaskMap} {pairs : List (String × String)}
    (h : ∀ t ∈ m, t.id ∈ pairs.map Prod.fst → t.status = TaskStatus.in_progress) :
    List.Forall₂ stepOk m (completeBatch m pairs) := by
  unfold completeBatch
  apply forall₂_stepOk_map
  intro t ht
  cases hf : pairs.find? (fun p => p.1 = t.id) with
  | none =>
    simp only [hf]
    exact stepOk_refl t
  | some p =>
    have hkey : t.id ∈ pairs.map Prod.fst := by
      have hpm := List.mem_of_find?_eq_some hf
      have hpf : p.1 = t.id := by
        have h2 := List.find?_some hf
        simpa using h2
      rw [← hpf]
      exact List.mem_map.mpr ⟨p, hpm, rfl⟩
    have hip := h t ht hkey
    simp only [hf]
    refine ⟨rfl, rfl, rfl, by rw [hip]; rfl, ?_, ?_, ?_⟩
    · intro hc
      rw [hip] at hc
      cases hc
    · intro hfl
      rw [hip] at hfl
      cases hfl
    · intro _
      refine ⟨rfl, ?_, rfl⟩
      rw [hip]
      intro h2
      cases h2

theorem markInProgress_map_id (m : TaskMap) (ids : List String) :
    (markInProgress m ids).map SubTask.id = m.map SubTask.id := by
  unfold markInProgress
  apply map_id_of_id_preserving
  intro u
  by_cases h : u.id ∈ ids <;> simp [h]

theorem completeBatch_map_id (m : TaskMap) (pairs : List (String × String)) :
    (completeBatch m pairs).map SubTask.id = m.map SubTask.id := by
  unfold completeBatch
  apply map_id_of_id_preserving
  intro u
  cases h : pairs.find? (fun p => p.1 = u.id) with
  | some p => simp [h]
  | none => simp [h]

/-- C9: Every step of the scheduler moves each task's status only along the
edges PENDING → IN_PROGRESS (marking a ready batch), IN_PROGRESS → COMPLETED
(storing a batch's results) and IN_PROGRESS → FAILED (a worker exception); a
task that is COMPLETED or FAILED is never modified again in any way, and the
`result` field changes only at the moment the status becomes COMPLETED, to a
`some` value, never afterwards.  Stated over the whole remaining run: each
slot of the task map evolves along `stepOk` (the reflexive-transitive closure
of the three edges plus the freeze and single-write conditions), for
any executor, any fuel and any starting state whose ids are unique. -/
theorem scheduler_step_transitions (llm : String → Except String String) :
    ∀ fuel (st : St), (st.tasks.map SubTask.id).Nodup →
      List.Forall₂ stepOk st.tasks (runLoop llm fuel st).1 := by
  intro fuel
  induction fuel with
  | zero =>
    intro st _
    exact forall₂_stepOk_refl st.tasks
  | succ fuel ih =>
    intro st hnodup
    by_cases hany : st.tasks.any (fun t => t.status ≠ TaskStatus.completed) = true
    · cases hcr : computeReady st.tasks with
      | error d =>
        rw [runLoop_keyError_eq llm fuel st d hany hcr]
        exact forall₂_stepOk_refl _
      | ok out =>
        cases out with
        | nil =>
          by_cases hfail : st.tasks.any (fun t => t.status = TaskStatus.failed) = true
          · rw [runLoop_failed_eq llm fuel st hany hcr hfail]
            exact forall₂_stepOk_refl _
          · have hfail' := Bool.of_not_eq_true hfail
            by_cases hpend : st.tasks.any (fun t => t.status = TaskStatus.pending) = true
            · rw [runLoop_cycle_eq llm fuel st hany hcr hfail' hpend]
              exact forall₂_stepOk_refl _
            · rw [runLoop_break_eq llm fuel st hany hcr hfail'
                (Bool.of_not_eq_true hpend)]
              exact forall₂_stepOk_refl _
        | cons r rs =>
          have hmark := forall₂_stepOk_markInProgress hnodup hcr
          have hinprog : ∀ t' ∈ markInProgress st.tasks ((r :: rs).map SubTask.id),
              t'.id ∈ (r :: rs).map SubTask.id → t'.status = TaskStatus.in_progress :=
            fun t' ht' hid => marked_in_ids_in_progress ht' hid
          cases hff : firstFailure (batchOutcomes llm
              (markInProgress st.tasks ((r :: rs).map SubTask.id)) (r :: rs)) with
          | some p =>
            cases p with
            | mk i m =>
              rw [runLoop_batch_fail llm fuel st r rs i m hany hcr hff]
              refine forall₂_stepOk_trans hmark (forall₂_stepOk_markFailed ?_)
              intro t' ht' hid
              have h2 := failedIds_subset hid
              rw [batchOutcomes_map_fst] at h2
              exact hinprog t' ht' h2
          | none =>
            rw [runLoop_batch_ok llm fuel st r rs hany hcr hff]
            have hnodup2 : ((completeBatch (markInProgress st.tasks ((r :: rs).map SubTask.id)) (okPairs (batchOutcomes llm (markInProgress st.tasks ((r :: rs).map SubTask.id)) (r :: rs)))).map SubTask.id).Nodup := by
              rw [completeBatch_map_id, markInProgress_map_id]
              exact hnodup
            have hih := ih { tasks := completeBatch (markInProgress st.tasks ((r :: rs).map SubTask.id)) (okPairs (batchOutcomes llm (markInProgress st.tasks ((r :: rs).map SubTask.id)) (r :: rs))), results := updateResults st.results (okPairs (batchOutcomes llm (markInProgress st.tasks ((r :: rs).map SubTask.id)) (r :: rs))) } hnodup2
            refine forall₂_stepOk_trans
              (forall₂_stepOk_trans hmark (forall₂_stepOk_completeBatch ?_)) hih
            intro t' ht' hid
            rw [okPairs_map_fst (firstFailure_none_iff.mp hff),
              batchOutcomes_map_fst] at hid
            exact hinprog t' ht' hid
    · rw [runLoop_done llm fuel st (Bool.of_not_eq_true hany)]
      exact forall₂_stepOk_refl _

/-- Witness for `scheduler_step_transitions`: a two-task chain run with a
succeeding executor and enough fuel to finish. -/
theorem scheduler_step_transitions_witness :
    List.Forall₂ stepOk
      [{ id := "A", description := "a", dependencies := [] },
       { id := "B", description := "b", dependencies := ["A"] }]
      (runLoop (fun _ => Except.ok "r") 3
        { tasks := [{ id := "A", description := "a", dependencies := [] },
                    { id := "B", description := "b", dependencies := ["A"] }],
          results := [] }).1 :=
  scheduler_step_transitions (fun _ => Except.ok "r") 3
    { tasks := [{ id := "A", description := "a", dependencies := [] },
                { id := "B", description := "b", dependencies := ["A"] }],
      results := [] } (by decide)

/-- Ten independent planned tasks: the task set of the spec's concurrency
scenario. -/
def tenTasks : TaskMap :=
  [{ id := "T0", description := "t0", dependencies := [] },
   { id := "T1", description := "t1", dependencies := [] },
   { id := "T2", description := "t2", dependencies := [] },
   { id := "T3", description := "t3", dependencies := [] },
   { id := "T4", description := "t4", dependencies := [] },
   { id := "T5", description := "t5", dependencies := [] },
   { id := "T6", description := "t6", dependencies := [] },
   { id := "T7", description := "t7", dependencies := [] },
   { id := "T8", description := "t8", dependencies := [] },
   { id := "T9", description := "t9", dependencies := [] }]

/-- C7 (counterexample to the claim as stated): the scheduler has no
concurrency-limit input at all — lines 131-137 mark every ready task
IN_PROGRESS and submit the whole batch at once.  With the ten independent
tasks, the first round's ready set is all ten, so the state the run passes
through while the batch executes (the `marked` map built by `runLoop` before
`asyncio.gather`) holds ten simultaneously IN_PROGRESS tasks, violating the
claimed bound of 3. -/
theorem concurrency_limit_counterexample :
    computeReady tenTasks = Except.ok tenTasks ∧
    inProgressCount (markInProgress tenTasks (tenTasks.map SubTask.id)) = 10 ∧
    ¬ inProgressCount (markInProgress tenTasks (tenTasks.map SubTask.id)) ≤ 3 :=
  ⟨rfl, rfl, by decide⟩

/-- C7 (amended): the code has no concurrency limit: in a round every ready
task is simultaneously IN_PROGRESS while the batch runs.  With ten independent
tasks, all ten are IN_PROGRESS at once during the single round, and the run
then completes every task successfully. -/
theorem no_concurrency_limit :
    computeReady tenTasks = Except.ok tenTasks ∧
    inProgressCount (markInProgress tenTasks (tenTasks.map SubTask.id)) = 10 ∧
    (runFromMap (fun _ => Except.ok "r") (fun _ => "done") tenTasks).2 =
      Except.ok "done" ∧
    ∀ t ∈ (runFromMap (fun _ => Except.ok "r") (fun _ => "done") tenTasks).1,
      t.status = TaskStatus.completed ∧ t.result = some "r" :=
  ⟨rfl, rfl, rfl, by decide⟩

/-- The two-task cycle `{A: deps=[B]}, {B: deps=[A]}` of the spec's concrete
scenario 2. -/
def cycleAB : TaskMap :=
  [{ id := "A", description := "a", dependencies := ["B"] },
   { id := "B", description := "b", dependencies := ["A"] }]

/-- A disjoint two-task cycle `{C: deps=[D]}, {D: deps=[C]}`. -/
def cycleCD : TaskMap :=
  [{ id := "C", description := "c", dependencies := ["D"] },
   { id := "D", description := "d", dependencies := ["C"] }]

/-- C8 (counterexample to the claim as stated): the cycle/deadlock error is
`Exception("Dependency cycle detected")` — a constant with no payload.  Two
cyclic task sets with different still-PENDING id sets produce the *same* error
value, so the surfaced error cannot carry (and for `{A,B}` does not list) the
set of still-PENDING task ids. -/
theorem cycle_error_payload_counterexample :
    (runFromMap (fun _ => Except.ok "r") (fun _ => "done") cycleAB).2 =
      Except.error RunError.cycleDetected ∧
    (runFromMap (fun _ => Except.ok "r") (fun _ => "done") cycleCD).2 =
      Except.error RunError.cycleDetected ∧
    pendingIds (runFromMap (fun _ => Except.ok "r") (fun _ => "done") cycleAB).1 ≠
      pendingIds (runFromMap (fun _ => Except.ok "r") (fun _ => "done") cycleCD).1 ∧
    RunError.message RunError.cycleDetected = "Dependency cycle detected" :=
  ⟨rfl, rfl, by decide, rfl⟩

/-- C8 (amended): on the two-task cycle the run terminates with the
cycle/deadlock error, whose surfaced message is the constant "Dependency cycle
detected" carrying no task ids; the still-PENDING ids `A`, `B` remain
observable only in the (unchanged) task map the run leaves behind. -/
theorem cycle_error_constant_message :
    runFromMap (fun _ => Except.ok "r") (fun _ => "done") cycleAB =
      (cycleAB, Except.error RunError.cycleDetected) ∧
    pendingIds cycleAB = ["A", "B"] ∧
    RunError.message RunError.cycleDetected = "Dependency cycle detected" :=
  ⟨rfl, rfl, rfl⟩

/-- C1: For every task map and every round, a task is selected as ready if and
only if its status is PENDING and every id in its dependencies list maps to a
task whose status is COMPLETED; in particular a PENDING task with an empty
dependencies list is always ready.  The first conjunct characterises the
per-task comprehension condition of lines 111-115, the second characterises
membership in the computed `ready_tasks` list, the third is the
no-dependencies special case. -/
theorem readiness_rule (tasks : TaskMap) (t : SubTask) :
    (readyCheck tasks t = Except.ok true ↔
      t.status = TaskStatus.pending ∧
        ∀ d ∈ t.dependencies, ∃ u, findTask tasks d = some u ∧
          u.status = TaskStatus.completed) ∧
    (∀ out, computeReady tasks = Except.ok out →
      (t ∈ out ↔ t ∈ tasks ∧ readyCheck tasks t = Except.ok true)) ∧
    (t.status = TaskStatus.pending → t.dependencies = [] →
      readyCheck tasks t = Except.ok true) := by
  refine ⟨readyCheck_ok_true_iff, ?_, ?_⟩
  · intro out hout
    exact computeReadyAux_ok_mem hout t
  · intro hp hd
    rw [readyCheck_ok_true_iff, hd]
    exact ⟨hp, by simp⟩

/-- Witness for `readiness_rule`: a concrete PENDING task with a single
COMPLETED dependency is ready, and one whose dependency is still PENDING is
not selected. -/
theorem readiness_rule_witness :
    readyCheck
      [{ id := "A", description := "a", dependencies := [],
         status := TaskStatus.completed, result := some "ra" },
       { id := "B", description := "b", dependencies := ["A"] }]
      { id := "B", description := "b", dependencies := ["A"] } = Except.ok true :=
  (readiness_rule _ _).1.mpr (by decide)

end Orchestrator
